import Mathlib

/-!
# MedPulse: page-range selection, text extraction and note generation

A shallow embedding of `src/App.jsx`: the closures `getPagesToProcess`,
`extractTextFromPDF` and `generateNotes` of the `App` component, with the state
variables they read (`pageRange`, `pdfFile`) made parameters.

* A JavaScript string is modelled as the list of its characters.  The characters the
  program looks for (`,`, `-`, the backslash, the backtick, white space) are single
  UTF-16 code units, so splitting, trimming and replacing agree with the code-unit
  semantics of JavaScript.  The prompt, which holds a text cut by `substring`, is
  modelled as the list of its UTF-16 code units.
* A JavaScript number is modelled by `JSNum`: `NaN`, a finite binary64 value (held as
  the rational it denotes) or a signed infinity.  Arithmetic that produces a new number
  (`Number(s)`, `i++`) rounds to binary64 with `roundDouble`.  The sign of zero is not
  tracked: nothing in the program observes it (`-0` is falsy, compares like `0`, and
  `Set.prototype.add` stores it as `+0`).
* The page count `total` is `pdf.numPages`, a natural number.
* A loop that may run forever takes a bound on the executions of its body and
  returns `none` when the bound is used up before the loop test fails.
* The collaborators (the file, pdf.js, the inference client) are parameters: each call
  yields a value or the message of the error it raises.  The progress text `aiStatus`
  is modelled by its value when `generateNotes` settles only.
* The loop bound `end` of the source is called `stop`, since `end` is reserved.
-/

namespace MedPulse

/-! ## Strings -/

/-- A JavaScript string, as the list of its characters. -/
abbrev Str := List Char

/-- The characters matched by `\s`, stripped by `String.prototype.trim` and skipped
around a numeric literal by `Number`: ECMAScript `WhiteSpace` and `LineTerminator`. -/
def isWhiteSpace (c : Char) : Bool :=
  let n := c.toNat
  n == 9 || n == 10 || n == 11 || n == 12 || n == 13 || n == 32 || n == 160 ||
  n == 0x1680 || (0x2000 ≤ n && n ≤ 0x200A) || n == 0x2028 || n == 0x2029 ||
  n == 0x202F || n == 0x205F || n == 0x3000 || n == 0xFEFF

/-- The method `s.trimStart()`. -/
def trimStart (s : Str) : Str := s.dropWhile isWhiteSpace

/-- The method `s.trimEnd()`. -/
def trimEnd (s : Str) : Str := (s.reverse.dropWhile isWhiteSpace).reverse

/-- The method `s.trim()`. -/
def trim (s : Str) : Str := trimEnd (trimStart s)

/-- The method `s.split(sep)` for a one-character separator: the pieces between the separators,
in order; a string without separator is its own single piece (`"".split(',')` is `[""]`). -/
def split (sep : Char) : Str → List Str
  | [] => [[]]
  | c :: cs =>
    if c = sep then [] :: split sep cs
    else
      match split sep cs with
      | [] => [[c]]
      | p :: ps => (c :: p) :: ps

/-- The method `items.join(sep)` for a one-character separator. -/
def join (sep : Char) : List Str → Str
  | [] => []
  | [p] => p
  | p :: q :: rest => p ++ sep :: join sep (q :: rest)

/-- The method `s.includes(ch)` for a one-character needle. -/
def includes (s : Str) (ch : Char) : Bool := s.contains ch

/-! ## Numbers -/

/-- A JavaScript number. -/
inductive JSNum
  | nan
  | fin (q : ℚ)
  | inf (neg : Bool)
  deriving DecidableEq

namespace JSNum

/-- Truthiness of a number: `0` and `NaN` are falsy. -/
def truthy : JSNum → Bool
  | nan => false
  | fin q => decide (q ≠ 0)
  | inf _ => true

/-- The comparison `a <= b`. -/
def le : JSNum → JSNum → Bool
  | nan, _ => false
  | _, nan => false
  | fin p, fin q => decide (p ≤ q)
  | fin _, inf neg => !neg
  | inf neg, fin _ => neg
  | inf n₁, inf n₂ => n₁ || !n₂

/-- The comparison `a < b`. -/
def lt : JSNum → JSNum → Bool
  | nan, _ => false
  | _, nan => false
  | fin p, fin q => decide (p < q)
  | fin _, inf neg => !neg
  | inf neg, fin _ => neg
  | inf n₁, inf n₂ => n₁ && !n₂

/-- A number that is a non-negative integer, such as a page count. -/
def ofNat (n : ℕ) : JSNum := fin n

end JSNum

/-- Round to the nearest integer, ties to the even one. -/
def roundHalfEven (x : ℚ) : ℤ :=
  let f := ⌊x⌋
  if x - f < 1 / 2 then f
  else if 1 / 2 < x - f then f + 1
  else if f % 2 = 0 then f else f + 1

/-- The binary64 value nearest to a positive rational (ties to even), as a rational;
`2 ^ 1024` or more stands for an overflow.  The binade exponent is clamped at `-1022`,
below which the values are subnormal with spacing `2 ^ (-1074)`. -/
def roundPos (x : ℚ) : ℚ :=
  let e := max (Int.log 2 x) (-1022)
  let ulp : ℚ := 2 ^ (e - 52)
  (roundHalfEven (x / ulp) : ℚ) * ulp

/-- The Number value for a mathematical value: IEEE 754 binary64, round to nearest,
ties to even, overflow to an infinity. -/
def roundDouble (x : ℚ) : JSNum :=
  if x = 0 then .fin 0
  else
    let y := roundPos |x|
    if 2 ^ 1024 ≤ y then .inf (decide (x < 0))
    else .fin (if x < 0 then -y else y)

/-- The value of `i + 1` (what `i++` stores back into `i`). -/
def JSNum.succ : JSNum → JSNum
  | .nan => .nan
  | .fin q => roundDouble (q + 1)
  | .inf neg => .inf neg

/-! ## `Number(string)` -/

/-- The value of a digit character in base 16 (decimal, octal and binary digits are
the ones whose value is below the radix). -/
def digitValue (c : Char) : Option ℕ :=
  let n := c.toNat
  if 48 ≤ n ∧ n ≤ 57 then some (n - 48)
  else if 97 ≤ n ∧ n ≤ 102 then some (n - 87)
  else if 65 ≤ n ∧ n ≤ 70 then some (n - 55)
  else none

/-- A character that is a digit of the given radix. -/
def isDigitIn (radix : ℕ) (c : Char) : Bool :=
  match digitValue c with
  | some d => decide (d < radix)
  | none => false

/-- The mathematical value of a string of digits of the given radix. -/
def digitsValue (radix : ℕ) (ds : Str) : ℕ :=
  ds.foldl (fun n c => radix * n + (digitValue c).getD 0) 0

/-- A non-empty string made only of digits of the given radix. -/
def isDigits (radix : ℕ) (ds : Str) : Bool :=
  !ds.isEmpty && ds.all (isDigitIn radix)

/-- The grammar `ExponentPart_opt` at the end of a decimal literal: nothing, or `e`/`E`,
an optional sign and at least one decimal digit. -/
def parseExponent : Str → Option ℤ
  | [] => some 0
  | c :: r =>
    if c = 'e' ∨ c = 'E' then
      match r with
      | '+' :: ds => if isDigits 10 ds then some (digitsValue 10 ds) else none
      | '-' :: ds => if isDigits 10 ds then some (-(digitsValue 10 ds : ℤ)) else none
      | ds => if isDigits 10 ds then some (digitsValue 10 ds) else none
    else none

/-- The grammar `StrUnsignedDecimalLiteral`: `Infinity`, `digits . digits? exponent?`,
`. digits exponent?` or `digits exponent?`.  The result is `none` when the string is
not such a literal, `some none` for `Infinity`, and `some (some (m, e))` for a finite
literal whose mathematical value is `m * 10 ^ e`. -/
def parseUnsignedDecimal (s : Str) : Option (Option (ℕ × ℤ)) :=
  if s = "Infinity".toList then some none
  else
    let ip := s.takeWhile (isDigitIn 10)
    match s.dropWhile (isDigitIn 10) with
    | '.' :: r =>
      let fp := r.takeWhile (isDigitIn 10)
      if ip.isEmpty && fp.isEmpty then none
      else
        match parseExponent (r.dropWhile (isDigitIn 10)) with
        | some e => some (some (digitsValue 10 (ip ++ fp), e - fp.length))
        | none => none
    | rest =>
      if ip.isEmpty then none
      else
        match parseExponent rest with
        | some e => some (some (digitsValue 10 ip, e))
        | none => none

/-- The mathematical value `m * 10 ^ e` of a finite decimal literal. -/
def decimalValue (m : ℕ) (e : ℤ) : ℚ := (m : ℚ) * 10 ^ e

/-- The Number value of a signed decimal literal. -/
def signedDecimal (neg : Bool) (s : Str) : JSNum :=
  match parseUnsignedDecimal s with
  | none => .nan
  | some none => .inf neg
  | some (some (m, e)) => roundDouble (if neg then -decimalValue m e else decimalValue m e)

/-- The Number value of the digits of a binary, octal or hexadecimal literal. -/
def nonDecimal (radix : ℕ) (ds : Str) : JSNum :=
  if isDigits radix ds then roundDouble (digitsValue radix ds) else .nan

/-- The grammar `StrNumericLiteral`: a binary, octal or hexadecimal integer literal
(unsigned), or a decimal literal with an optional sign.  Anything else is `NaN`. -/
def parseNumeric : Str → JSNum
  | '0' :: 'b' :: ds => nonDecimal 2 ds
  | '0' :: 'B' :: ds => nonDecimal 2 ds
  | '0' :: 'o' :: ds => nonDecimal 8 ds
  | '0' :: 'O' :: ds => nonDecimal 8 ds
  | '0' :: 'x' :: ds => nonDecimal 16 ds
  | '0' :: 'X' :: ds => nonDecimal 16 ds
  | '+' :: s => signedDecimal false s
  | '-' :: s => signedDecimal true s
  | s => signedDecimal false s

/-- The conversion `Number(s)` for a string `s` (ECMAScript `StringToNumber`): white space
around the literal is skipped, the empty or blank string is `0`, a malformed literal is
`NaN`. -/
def Number (s : Str) : JSNum :=
  let t := trim s
  if t.isEmpty then .fin 0 else parseNumeric t

/-! ## The page-range parser -/

/-- The method `pages.add(x)` on a `Set`, kept as the list of its elements in insertion
order. -/
def setAdd (pages : List JSNum) (x : JSNum) : List JSNum :=
  if x ∈ pages then pages else pages ++ [x]

/-- The loop `for (let i = start; i <= end; i++) if (i <= total) pages.add(i);`
started at `i`, allowed at most `fuel` executions of its body.  `none` means that
the loop test still holds when the allowance is used up. -/
def rangeLoop (stop : JSNum) (total : ℕ) : ℕ → JSNum → List JSNum → Option (List JSNum)
  | fuel, i, pages =>
    if i.le stop then
      match fuel with
      | 0 => none
      | fuel + 1 =>
        rangeLoop stop total fuel i.succ (if i.le (.ofNat total) then setAdd pages i else pages)
    else some pages

/-- The body of `parts.forEach(part => ...)` for one part.  A piece missing from the
destructuring `[start, end]` would be `undefined`, which is falsy like `NaN`. -/
def processPart (fuel total : ℕ) (pages : List JSNum) (part : Str) : Option (List JSNum) :=
  if includes part '-' then
    let nums := (split '-' part).map Number
    let start := nums.getD 0 .nan
    let stop := nums.getD 1 .nan
    if start.truthy && stop.truthy then rangeLoop stop total fuel start pages
    else some pages
  else
    let num := Number part
    if num.truthy && num.le (.ofNat total) then some (setAdd pages num) else some pages

/-- The call `parts.forEach(...)`, threading the `Set`. -/
def forEachPart (fuel total : ℕ) : List Str → List JSNum → Option (List JSNum)
  | [], pages => some pages
  | part :: rest, pages =>
    match processPart fuel total pages part with
    | none => none
    | some pages' => forEachPart fuel total rest pages'

/-- The order `(a, b) => a - b` gives to `Array.prototype.sort`: `a` may stay before
`b` unless `a - b > 0`. -/
def sortsBefore (a b : JSNum) : Prop := b.lt a = false

instance : DecidableRel sortsBefore := fun a b => inferInstanceAs (Decidable (b.lt a = false))

/-- The expression `Array.from(pages).sort((a, b) => a - b)`.  The elements of the `Set`
are finite numbers, on which the comparator is a total order, so that every sorting
method gives the list an insertion sort gives. -/
def sortPages (pages : List JSNum) : List JSNum := pages.insertionSort sortsBefore

/-- The expression `Array.from({ length: total }, (_, i) => i + 1)`; `total` is a page
count, far below `2 ^ 53`, where `i + 1` is exact. -/
def allPages (total : ℕ) : List JSNum := (List.range total).map fun i => .ofNat (i + 1)

/-- The function `getPagesToProcess(total)` with the state variable `pageRange` made a
parameter.  Each range loop is allowed at most `fuel` executions of its body; `none`
means that some loop has not finished within that allowance. -/
def getPagesToProcess (fuel : ℕ) (pageRange : Str) (total : ℕ) : Option (List JSNum) :=
  if (trim pageRange).isEmpty then some (allPages total)
  else
    match forEachPart fuel total (split ',' pageRange) [] with
    | none => none
    | some pages => some (sortPages pages)

/-- The call `getPagesToProcess(total)` returns the list `l`. -/
def Returns (pageRange : Str) (total : ℕ) (l : List JSNum) : Prop :=
  ∃ fuel, getPagesToProcess fuel pageRange total = some l

/-! ## The text extractor -/

/-- An error object caught by `generateNotes`, told apart by where it is raised: the
`new Error("Seçilen aralıkta sayfa bulunamadı.")` of `extractTextFromPDF`, the
`TypeError` of calling `model.generateContent` on a `null` model, or an error raised
by a collaborator (the file, pdf.js, the inference client) with its message. -/
inductive JSError
  | emptySelection
  | nullModel
  | external (message : Str)
  deriving DecidableEq

/-- The message of the empty-selection error. -/
def emptySelectionMessage : Str := "Seçilen aralıkta sayfa bulunamadı.".toList

/-- The message of the `TypeError` raised by `model.generateContent(prompt)` when `model`
is `null`.  Its wording is chosen by the JavaScript engine; this is the one of V8. -/
def nullModelMessage : Str :=
  "Cannot read properties of null (reading ".toList ++ Char.ofNat 39 ::
    "generateContent".toList ++ [Char.ofNat 39, ')']

/-- The property `e.message`. -/
def JSError.message : JSError → Str
  | .emptySelection => emptySelectionMessage
  | .nullModel => nullModelMessage
  | .external m => m

/-- A document loaded by pdf.js.  `pageText n` is the outcome of `pdf.getPage(n)` followed
by `page.getTextContent()`: the strings `item.str` of the page's text items, or the
message of the error raised. -/
structure PDFDocument where
  numPages : ℕ
  pageText : JSNum → Except Str (List Str)

/-- A file chosen by the user.  `load` is the outcome of `file.arrayBuffer()` followed by
`pdfjs.getDocument(arrayBuffer).promise`: the document, or the message of the error. -/
structure PDFFile where
  load : Except Str PDFDocument

/-- The characters one iteration of the page loop appends to `fullText`: a space, then
`textContent.items.map(item => item.str).join(' ')`. -/
def pageRun (items : List Str) : Str := ' ' :: join ' ' items

/-- The loop over `targetPages` in `extractTextFromPDF`, from the accumulated `fullText`.
The second component records the page numbers passed to `pdf.getPage`, in order. -/
def readPages (pdf : PDFDocument) :
    List JSNum → Str → List JSNum → Except JSError Str × List JSNum
  | [], fullText, requested => (.ok fullText, requested)
  | pageNum :: rest, fullText, requested =>
    match pdf.pageText pageNum with
    | .error m => (.error (.external m), requested ++ [pageNum])
    | .ok items => readPages pdf rest (fullText ++ pageRun items) (requested ++ [pageNum])

/-- The backslash character. -/
def backslash : Char := Char.ofNat 92

/-- The replacement `s.replace(/\\/g, " ")`. -/
def replaceBackslashes (s : Str) : Str := s.map fun c => if c = backslash then ' ' else c

/-- The scan of `s.replace(/\s+/g, " ")`; `inRun` tells that the previous character was
white space, so that the current run has already been replaced by its single space. -/
def collapseFrom : Bool → Str → Str
  | _, [] => []
  | inRun, c :: cs =>
    if isWhiteSpace c then
      if inRun then collapseFrom true cs else ' ' :: collapseFrom true cs
    else c :: collapseFrom false cs

/-- The replacement `s.replace(/\s+/g, " ")`. -/
def collapseWhiteSpace (s : Str) : Str := collapseFrom false s

/-- The clean-up `fullText.replace(/\\/g, " ").replace(/\s+/g, " ").trim()`. -/
def normalize (fullText : Str) : Str := trim (collapseWhiteSpace (replaceBackslashes fullText))

/-- The function `extractTextFromPDF(file)`: the text returned or the error thrown, with the
page numbers requested from the document.  `none` means that `getPagesToProcess` has
not finished within `fuel`. -/
def extractTextFromPDF (fuel : ℕ) (pageRange : Str) (file : PDFFile) :
    Option (Except JSError Str × List JSNum) :=
  match file.load with
  | .error m => some (.error (.external m), [])
  | .ok pdf =>
    match getPagesToProcess fuel pageRange pdf.numPages with
    | none => none
    | some targetPages =>
      if targetPages.length = 0 then some (.error .emptySelection, [])
      else
        match readPages pdf targetPages [] [] with
        | (.ok fullText, requested) => some (.ok (normalize fullText), requested)
        | (.error e, requested) => some (.error e, requested)

/-! ## The note generator -/

/-- The scope label of the prompt, `pageRange ? "Seçili Sayfalar" : "Tüm Doküman"`: a
string is truthy when it is not empty. -/
def scopeLabel (pageRange : Str) : Str :=
  if pageRange.isEmpty then "Tüm Doküman".toList else "Seçili Sayfalar".toList

/-- The line feed of the prompt template. -/
def lineFeed : Char := Char.ofNat 10

/-- The double quote of the prompt template. -/
def doubleQuote : Char := Char.ofNat 34

/-- The lines of the prompt template that follow the line naming the scope. -/
def promptRules : Str :=
  lineFeed :: "Kurallar:".toList ++
  lineFeed :: "1. <h1>, <h2>, <ul>, <li>, <blockquote> kullan.".toList ++
  lineFeed :: "2. Önemli uyarıları <span style=".toList ++ doubleQuote ::
    "color: #dc2626;".toList ++ doubleQuote :: ">#SINAV</span>".toList ++
  lineFeed :: "3. Hoca vurgularını <span style=".toList ++ doubleQuote ::
    "color: #2563eb;".toList ++ doubleQuote :: ">#HOCA</span>".toList ++
  lineFeed :: "4. Ek bilgileri <span style=".toList ++ doubleQuote ::
    "color: #16a34a;".toList ++ doubleQuote :: ">(Ek Bilgi)</span> ile işaretle.".toList ++
  [lineFeed]

/-- The UTF-16 code units of a character: one unit in the Basic Multilingual Plane, a
surrogate pair beyond it. -/
def codeUnits (c : Char) : List ℕ :=
  let n := c.toNat
  if n < 0x10000 then [n]
  else [0xD800 + (n - 0x10000) / 0x400, 0xDC00 + (n - 0x10000) % 0x400]

/-- A string as the sequence of its UTF-16 code units, which is what `substring` and
`length` count. -/
def toUTF16 (s : Str) : List ℕ := s.flatMap codeUnits

/-- The text of the template literal `prompt` before the scope label. -/
def promptIntro : Str :=
  lineFeed :: "Sen uzman bir tıp asistanısın.".toList ++
  lineFeed :: "Şu metni (".toList

/-- The text of the template literal `prompt` between the scope label and the extracted
text. -/
def promptBody : Str :=
  ") HTML formatında, renkli ders notuna çevir.".toList ++
  lineFeed :: promptRules ++
  lineFeed :: "Metin:".toList ++
  [lineFeed, doubleQuote]

/-- The text of the template literal `prompt` before the extracted text. -/
def promptHead (pageRange : Str) : Str :=
  promptIntro ++ scopeLabel pageRange ++ promptBody

/-- The text of the template literal `prompt` after the extracted text. -/
def promptTail : Str := "...".toList ++ [doubleQuote, lineFeed]

/-- The template literal `prompt`, as UTF-16 code units; `rawText.substring(0, 30000)`
keeps the first 30000 code units of the extracted text. -/
def buildPrompt (pageRange rawText : Str) : List ℕ :=
  toUTF16 (promptHead pageRange) ++ (toUTF16 rawText).take 30000 ++ toUTF16 promptTail

/-- The fence marker that opens an HTML block. -/
def fenceHtml : Str := "```html".toList

/-- The bare fence marker. -/
def fence : Str := "```".toList

/-- The scan of `r.replace(/```html|```/g, "")`: `skip` characters of a match are still
to be dropped; at a position outside a match, the alternatives are tried in order. -/
def removeFencesFrom : ℕ → Str → Str
  | _, [] => []
  | skip + 1, _ :: cs => removeFencesFrom skip cs
  | 0, c :: cs =>
    if fenceHtml.isPrefixOf (c :: cs) then removeFencesFrom 6 cs
    else if fence.isPrefixOf (c :: cs) then removeFencesFrom 2 cs
    else c :: removeFencesFrom 0 cs

/-- The replacement `r.replace(/```html|```/g, "")`. -/
def removeFences (r : Str) : Str := removeFencesFrom 0 r

/-- The note made of a model response: `.replace(/```html|```/g, "").trim()`. -/
def cleanResponse (r : Str) : Str := trim (removeFences r)

/-- The state of the component that `generateNotes` reads and writes: the chosen file,
the page-range field, the document held by the editor, the messages shown with
`alert`, and the two progress variables. -/
structure AppState where
  pdfFile : Option PDFFile
  pageRange : Str
  content : Str
  alerts : List Str
  aiLoading : Bool
  aiStatus : Str

/-- The body of the `try` block of `generateNotes` after the extraction: the cleaned
notes or the error thrown.  `model` is `none` when no credential was configured;
otherwise it maps a prompt to `result.response.text()` or to the message of the error
raised by the inference call. -/
def requestNotes (model : Option (List ℕ → Except Str Str)) (pageRange : Str) :
    Except JSError Str → Except JSError Str
  | .error e => .error e
  | .ok rawText =>
    match model with
    | none => .error .nullModel
    | some generateContent =>
      match generateContent (buildPrompt pageRange rawText) with
      | .error m => .error (.external m)
      | .ok text => .ok (cleanResponse text)

/-- The function `generateNotes()`: the state when the call settles; `none` means that
`getPagesToProcess` has not finished within `fuel`. -/
def generateNotes (model : Option (List ℕ → Except Str Str)) (fuel : ℕ) (st : AppState) :
    Option AppState :=
  match st.pdfFile with
  | none => some { st with alerts := st.alerts ++ ["PDF Yok!".toList] }
  | some file =>
    match extractTextFromPDF fuel st.pageRange file with
    | none => none
    | some (extracted, _) =>
      match requestNotes model st.pageRange extracted with
      | .ok htmlNotes =>
        some { st with content := htmlNotes, aiLoading := false, aiStatus := [] }
      | .error e =>
        some { st with
          alerts := st.alerts ++ ["Hata: ".toList ++ e.message],
          aiLoading := false, aiStatus := [] }

/-! ## The vocabulary of the specification -/

/-- A string that is empty or made only of white space. -/
def Blank (s : Str) : Prop := ∀ c ∈ s, isWhiteSpace c = true

instance (s : Str) : Decidable (Blank s) :=
  inferInstanceAs (Decidable (∀ c ∈ s, isWhiteSpace c = true))

/-- An integer literal of value `n`: a non-empty string of decimal digits, with white
space allowed before and after it. -/
def IsIntLiteral (s : Str) (n : ℕ) : Prop :=
  ∃ l ds r, s = l ++ ds ++ r ∧ Blank l ∧ Blank r ∧ isDigits 10 ds = true ∧
    digitsValue 10 ds = n

/-- What a well-formed comma-separated part of a range expression denotes: a single page
number, or a range between two page numbers. -/
inductive PagePart
  | single (n : ℕ)
  | range (a b : ℕ)

/-- The strings that spell a part: an integer literal, or two integer literals joined by
one hyphen. -/
def PagePart.Spells : PagePart → Str → Prop
  | .single n, s => IsIntLiteral s n
  | .range a b, s => ∃ s₁ s₂, s = s₁ ++ '-' :: s₂ ∧ IsIntLiteral s₁ a ∧ IsIntLiteral s₂ b

/-- The integers a part asks for: the single non-zero number, or the integers between the
two non-zero ends of a range. -/
def PagePart.Selects : PagePart → ℕ → Prop
  | .single m, n => m ≠ 0 ∧ n = m
  | .range a b, n => a ≠ 0 ∧ b ≠ 0 ∧ a ≤ n ∧ n ≤ b

/-- A part whose literals are all below `2 ^ 53`, so that each is a binary64 value and
so is every integer up to one more than it. -/
def PagePart.Safe : PagePart → Prop
  | .single n => n < 2 ^ 53
  | .range a b => a < 2 ^ 53 ∧ b < 2 ^ 53

/-- A token that is `0` or not numeric: `Number` maps it to `0` or to `NaN`. -/
def ZeroOrNonNumeric (token : Str) : Prop := Number token = .fin 0 ∨ Number token = .nan

/-- A comma-separated part that asks for no page of a document of `total` pages: a range
`start-end` whose start or end token is `0` or not numeric, or whose start exceeds its
end; or a single token that is `0`, not numeric, or greater than `total`. -/
def AddsNoPage (total : ℕ) (part : Str) : Prop :=
  ',' ∉ part ∧
  ((∃ s e, part = s ++ '-' :: e ∧ '-' ∉ s ∧ '-' ∉ e ∧
      (ZeroOrNonNumeric s ∨ ZeroOrNonNumeric e ∨ (Number e).lt (Number s) = true)) ∨
    ('-' ∉ part ∧
      (ZeroOrNonNumeric part ∨ (JSNum.ofNat total).lt (Number part) = true)))

/-- A number that is a positive finite value or `+Infinity`. -/
def JSNum.Positive : JSNum → Prop
  | .nan => False
  | .fin q => 0 < q
  | .inf neg => neg = false

/-- The rational a finite number stands for (`0` for `NaN` and the infinities). -/
def JSNum.value : JSNum → ℚ
  | .fin q => q
  | _ => 0

/-- A `Set` of page numbers as the parser builds it for a document of `total` pages:
no element twice, every element a finite number in `(0, total]`. -/
def PagesOK (total : ℕ) (pages : List JSNum) : Prop :=
  pages.Nodup ∧ ∀ x ∈ pages, ∃ q : ℚ, x = .fin q ∧ 0 < q ∧ q ≤ total

/-- A number that, when finite, is a non-negative integer. -/
def JSNum.Whole (x : JSNum) : Prop := ∀ q : ℚ, x = .fin q → ∃ n : ℕ, q = n

/-- A range expression in which the token that starts a range, or stands alone as a
part, never parses to a fraction. -/
def WholeStarts (pageRange : Str) : Prop :=
  ∀ part ∈ split ',' pageRange, ∀ token ∈ (split '-' part).head?, (Number token).Whole

/-- The list of integers `ns` after adding `n` unless it is there already. -/
def addPage (ns : List ℕ) (n : ℕ) : List ℕ := if n ∈ ns then ns else ns ++ [n]

/-- The list of integers `ns` after adding, in ascending order, the integers from `a`
to `b` that are at most `total`. -/
def addRange (total : ℕ) (ns : List ℕ) (a b : ℕ) : List ℕ :=
  (List.range' a (b + 1 - a)).foldl (fun acc n => if n ≤ total then addPage acc n else acc) ns

/-- The list of integers `ns` after adding the integers a part asks for. -/
def PagePart.addTo (total : ℕ) (ns : List ℕ) : PagePart → List ℕ
  | .single n => if n ≠ 0 ∧ n ≤ total then addPage ns n else ns
  | .range a b => if a ≠ 0 ∧ b ≠ 0 then addRange total ns a b else ns

/-- The number of integers from the start of a range to its end. -/
def PagePart.iterations : PagePart → ℕ
  | .single _ => 0
  | .range a b => b + 1 - a

/-- The backtick character. -/
def backtick : Char := Char.ofNat 96

/-- The response without a fence marker at its very start, if there is one. -/
def dropLeadingFence (r : Str) : Str :=
  if fenceHtml.isPrefixOf r then r.drop fenceHtml.length
  else if fence.isPrefixOf r then r.drop fence.length
  else r

/-- The response without a fence marker at its very end, if there is one. -/
def dropTrailingFence (r : Str) : Str :=
  if fenceHtml.isSuffixOf r then r.take (r.length - fenceHtml.length)
  else if fence.isSuffixOf r then r.take (r.length - fence.length)
  else r

/-- The note as the specification words it: the response with a fence marker removed
from its start and from its end where present, then trimmed; everything between the two
is kept. -/
def stripOuterFences (r : Str) : Str := trim (dropTrailingFence (dropLeadingFence r))

/-- A two-page document whose pages hold the text items `A`, `B` and `C`.  As pdf.js does
for a page number that is not an integer from `1` to `numPages`, it rejects any other
request with the error `Invalid page request.` -/
def samplePdf : PDFDocument where
  numPages := 2
  pageText := fun n =>
    if n = .ofNat 1 then .ok ["A".toList, "B".toList]
    else if n = .ofNat 2 then .ok ["C".toList]
    else .error "Invalid page request.".toList

/-- The text items of the pages of `samplePdf`. -/
def sampleItems (n : JSNum) : List Str :=
  if n = .ofNat 1 then ["A".toList, "B".toList] else ["C".toList]

/-- A state in which `samplePdf` is selected, the page-range field holds `12` and the
editor holds the start-up placeholder of the note `Ders Notu`. -/
def sampleState : AppState where
  pdfFile := some ⟨.ok samplePdf⟩
  pageRange := "12".toList
  content := "<h1>Ders Notu</h1><p>Sayfa aralığı seçip not çıkarmaya başla...</p>".toList
  alerts := []
  aiLoading := false
  aiStatus := []

/-- A number that cannot hold up a range loop as its end: `NaN`, `-Infinity`, or a finite
value below `2 ^ 53`. -/
def JSNum.BelowTwoPow53 : JSNum → Prop
  | .nan => True
  | .fin q => q < 2 ^ 53
  | .inf neg => neg = true

/-- A range expression in which the end token of every range parses below `2 ^ 53`. -/
def BoundedEnds (pageRange : Str) : Prop :=
  ∀ part ∈ split ',' pageRange, (((split '-' part).map Number).getD 1 .nan).BelowTwoPow53

/-- A character that separates the words of an extracted text: white space or a
backslash. -/
def isSeparator (c : Char) : Bool := isWhiteSpace c || c == backslash

/-- The words of a text: its maximal runs of characters that are not separators, in
order. -/
def words : Str → List Str
  | [] => []
  | [c] => if isSeparator c then [] else [[c]]
  | c :: d :: ds =>
    if isSeparator c then words (d :: ds)
    else if isSeparator d then [c] :: words (d :: ds)
    else
      match words (d :: ds) with
      | [] => [[c]]
      | w :: ws => (c :: w) :: ws

/-- A state in which `samplePdf` is selected, the page-range field is empty and the
editor holds the start-up placeholder of the note `Ders Notu`. -/
def sampleReadyState : AppState where
  pdfFile := some ⟨.ok samplePdf⟩
  pageRange := []
  content := "<h1>Ders Notu</h1><p>Sayfa aralığı seçip not çıkarmaya başla...</p>".toList
  alerts := []
  aiLoading := false
  aiStatus := []

/-! ## Rounding to binary64 -/

theorem roundHalfEven_intCast (z : ℤ) : roundHalfEven (z : ℚ) = z := by
  simp [roundHalfEven]

theorem floor_le_roundHalfEven (x : ℚ) : ⌊x⌋ ≤ roundHalfEven x := by
  unfold roundHalfEven
  simp only
  split_ifs <;> omega

theorem roundPos_mul_zpow (m : ℤ) (e : ℤ) (x : ℚ) (hx : x = (m : ℚ) * 2 ^ (e - 52))
    (he : max (Int.log 2 x) (-1022) = e) : roundPos x = x := by
  have h2 : (2 : ℚ) ^ (e - 52) ≠ 0 := zpow_ne_zero _ (by norm_num)
  unfold roundPos
  simp only [he]
  rw [hx, mul_div_assoc, div_self h2, mul_one, roundHalfEven_intCast]

theorem roundPos_natCast (n : ℕ) (h0 : 0 < n) (h : n ≤ 2 ^ 53) : roundPos (n : ℚ) = n := by
  have hk : Nat.log 2 n ≤ 53 := by
    calc Nat.log 2 n ≤ Nat.log 2 (2 ^ 53) := Nat.log_mono_right h
      _ = 53 := Nat.log_pow (by norm_num) 53
  have hlog : max (Int.log 2 (n : ℚ)) (-1022) = (Nat.log 2 n : ℤ) := by
    rw [Int.log_natCast]
    omega
  rcases Nat.lt_or_ge (Nat.log 2 n) 53 with hlt | hge
  · refine roundPos_mul_zpow ((n * 2 ^ (52 - Nat.log 2 n) : ℕ) : ℤ) _ _ ?_ hlog
    have : ((Nat.log 2 n : ℤ) - 52) = -((52 - Nat.log 2 n : ℕ) : ℤ) := by omega
    rw [this, zpow_neg, zpow_natCast]
    push_cast
    field_simp
  · have hk53 : Nat.log 2 n = 53 := le_antisymm hk hge
    have hn : n = 2 ^ 53 := by
      refine le_antisymm h ?_
      have := Nat.pow_log_le_self 2 (Nat.pos_iff_ne_zero.mp h0)
      rwa [hk53] at this
    refine roundPos_mul_zpow (2 ^ 52) _ _ ?_ hlog
    rw [hk53, hn]
    norm_num

theorem roundDouble_natCast (n : ℕ) (h : n ≤ 2 ^ 53) : roundDouble (n : ℚ) = .fin n := by
  unfold roundDouble
  rcases Nat.eq_zero_or_pos n with h0 | h0
  · simp [h0]
  · have hne : (n : ℚ) ≠ 0 := by exact_mod_cast (Nat.pos_iff_ne_zero.mp h0)
    have hnn : ¬ ((n : ℚ) < 0) := by
      have : (0 : ℚ) ≤ n := Nat.cast_nonneg n
      linarith
    have habs : |(n : ℚ)| = n := abs_of_nonneg (Nat.cast_nonneg n)
    have hlt : ¬ ((2 : ℚ) ^ 1024 ≤ (n : ℚ)) := by
      have h1 : (n : ℚ) ≤ 2 ^ 53 := by exact_mod_cast h
      have h2 : (2 : ℚ) ^ 53 < 2 ^ 1024 := by norm_num
      linarith
    simp only [hne, if_false, habs, roundPos_natCast n h0 h, hlt, hnn]

theorem log_two_eq (x : ℚ) (e : ℤ) (h1 : (2 : ℚ) ^ e ≤ x) (h2 : x < (2 : ℚ) ^ (e + 1)) :
    Int.log 2 x = e := by
  have hx : 0 < x := lt_of_lt_of_le (zpow_pos (by norm_num) e) h1
  have hb : 1 < 2 := by norm_num
  have ha : e ≤ Int.log 2 x := by
    have := (Int.zpow_le_iff_le_log hb hx (x := e)).mp
    exact this (by exact_mod_cast h1)
  have hc : Int.log 2 x < e + 1 := by
    have := (Int.lt_zpow_iff_log_lt hb hx (x := e + 1)).mp
    exact this (by exact_mod_cast h2)
  omega

theorem roundDouble_three_halves : roundDouble (3 / 2) = .fin (3 / 2) := by
  have hlog : Int.log 2 ((3 : ℚ) / 2) = 0 := log_two_eq _ 0 (by norm_num) (by norm_num)
  have hpos : roundPos (3 / 2) = 3 / 2 := by
    refine roundPos_mul_zpow (3 * 2 ^ 51) 0 _ ?_ ?_
    · norm_num
    · rw [hlog]; rfl
  have habs : |(3 : ℚ) / 2| = 3 / 2 := abs_of_nonneg (by norm_num)
  unfold roundDouble
  rw [habs, hpos]
  norm_num

/-- Above `2 ^ 53` the odd integers are not binary64 values: `2 ^ 53 + 1` is midway
between two of them and rounds to the even one, `2 ^ 53`. -/
theorem roundDouble_two_pow_succ : roundDouble (2 ^ 53 + 1) = .fin (2 ^ 53) := by
  have hlog : Int.log 2 ((2 : ℚ) ^ 53 + 1) = 53 :=
    log_two_eq _ 53 (by norm_num) (by norm_num)
  have hfloor : ⌊((2 : ℚ) ^ 53 + 1) / 2⌋ = 2 ^ 52 := by
    rw [Int.floor_eq_iff]
    constructor <;> norm_num
  have hpos : roundPos (2 ^ 53 + 1) = 2 ^ 53 := by
    unfold roundPos
    rw [hlog]
    have hmax : max (53 : ℤ) (-1022) = 53 := by decide
    simp only [hmax]
    have hulp : (2 : ℚ) ^ ((53 : ℤ) - 52) = 2 := by norm_num
    rw [hulp]
    unfold roundHalfEven
    simp only [hfloor]
    norm_num
  have habs : |(2 : ℚ) ^ 53 + 1| = 2 ^ 53 + 1 := abs_of_nonneg (by norm_num)
  unfold roundDouble
  rw [habs, hpos]
  norm_num

theorem roundPos_nonneg (x : ℚ) (hx : 0 ≤ x) : 0 ≤ roundPos x := by
  unfold roundPos
  have hulp : (0 : ℚ) < 2 ^ (max (Int.log 2 x) (-1022) - 52) := zpow_pos (by norm_num) _
  have hq : 0 ≤ x / 2 ^ (max (Int.log 2 x) (-1022) - 52) := div_nonneg hx hulp.le
  have hf : (0 : ℤ) ≤ roundHalfEven (x / 2 ^ (max (Int.log 2 x) (-1022) - 52)) :=
    le_trans (Int.floor_nonneg.mpr hq) (floor_le_roundHalfEven _)
  have : (0 : ℚ) ≤ (roundHalfEven (x / 2 ^ (max (Int.log 2 x) (-1022) - 52)) : ℚ) := by
    exact_mod_cast hf
  exact mul_nonneg this hulp.le

theorem zpow_log_le_roundPos (x : ℚ) (hx : 1 ≤ x) : (2 : ℚ) ^ Int.log 2 x ≤ roundPos x := by
  have hpos : 0 < x := by linarith
  have hlog0 : 0 ≤ Int.log 2 x := by
    rw [Int.log_of_one_le_right 2 hx]
    exact Int.natCast_nonneg _
  have hmax : max (Int.log 2 x) (-1022) = Int.log 2 x := by omega
  unfold roundPos
  simp only [hmax]
  set e := Int.log 2 x with he
  have hle : (2 : ℚ) ^ e ≤ x := by
    have := Int.zpow_log_le_self (b := 2) (by norm_num) hpos
    exact_mod_cast this
  have hulp : (0 : ℚ) < 2 ^ (e - 52) := zpow_pos (by norm_num) _
  have hsplit : (2 : ℚ) ^ e = 2 ^ 52 * 2 ^ (e - 52) := by
    rw [← zpow_natCast, ← zpow_add₀ (by norm_num)]
    congr 1
    omega
  have hq : ((2 ^ 52 : ℤ) : ℚ) ≤ x / 2 ^ (e - 52) := by
    rw [le_div_iff₀ hulp]
    have hc : ((2 ^ 52 : ℤ) : ℚ) = 2 ^ 52 := by norm_num
    rw [hc, ← hsplit]
    exact hle
  have hf : (2 ^ 52 : ℤ) ≤ roundHalfEven (x / 2 ^ (e - 52)) :=
    le_trans (Int.le_floor.mpr hq) (floor_le_roundHalfEven _)
  have hfq : ((2 : ℚ) ^ 52) ≤ (roundHalfEven (x / 2 ^ (e - 52)) : ℚ) := by
    exact_mod_cast hf
  calc (2 : ℚ) ^ e = 2 ^ 52 * 2 ^ (e - 52) := hsplit
    _ ≤ (roundHalfEven (x / 2 ^ (e - 52)) : ℚ) * 2 ^ (e - 52) :=
        mul_le_mul_of_nonneg_right hfq hulp.le

theorem one_le_roundPos (x : ℚ) (hx : 1 ≤ x) : 1 ≤ roundPos x := by
  have hlog0 : 0 ≤ Int.log 2 x := by
    rw [Int.log_of_one_le_right 2 hx]
    exact Int.natCast_nonneg _
  exact le_trans (one_le_zpow₀ (by norm_num) hlog0) (zpow_log_le_roundPos x hx)

/-- The Number value of a non-negative mathematical value is a non-negative finite
number or `+Infinity`. -/
theorem roundDouble_of_nonneg (x : ℚ) (hx : 0 ≤ x) :
    roundDouble x = .inf false ∨ ∃ y, 0 ≤ y ∧ roundDouble x = .fin y := by
  unfold roundDouble
  have hnn : ¬ (x < 0) := not_lt.mpr hx
  have habs : |x| = x := abs_of_nonneg hx
  by_cases h0 : x = 0
  · exact Or.inr ⟨0, le_refl _, by simp [h0]⟩
  · simp only [h0, if_false, habs, hnn, decide_False]
    split_ifs
    · exact Or.inl rfl
    · exact Or.inr ⟨_, roundPos_nonneg x hx, rfl⟩

/-- The Number value of a mathematical value that is at least `1` is a finite number
that is at least `1`, or `+Infinity`. -/
theorem roundDouble_of_one_le (x : ℚ) (hx : 1 ≤ x) :
    roundDouble x = .inf false ∨ ∃ y, 1 ≤ y ∧ roundDouble x = .fin y := by
  unfold roundDouble
  have hnn : ¬ (x < 0) := by
    have : (0 : ℚ) ≤ x := by linarith
    exact not_lt.mpr this
  have habs : |x| = x := abs_of_nonneg (by linarith)
  have h0 : x ≠ 0 := by
    intro h
    rw [h] at hx
    norm_num at hx
  simp only [h0, if_false, habs, hnn, decide_False]
  split_ifs
  · exact Or.inl rfl
  · exact Or.inr ⟨_, one_le_roundPos x hx, rfl⟩

/-! ## Strings -/

theorem trim_eq_nil_of_blank (s : Str) (h : ∀ c ∈ s, isWhiteSpace c = true) : trim s = [] := by
  have h1 : trimStart s = [] := by
    unfold trimStart
    exact List.dropWhile_eq_nil_iff.mpr h
  simp [trim, h1, trimEnd]

/-! ## Evaluating `Number` -/

theorem roundDouble_ne_nan (x : ℚ) : roundDouble x ≠ .nan := by
  unfold roundDouble
  by_cases h0 : x = 0
  · simp [h0]
  · simp only [h0, if_false]
    by_cases h1 : (2 : ℚ) ^ 1024 ≤ roundPos |x| <;> simp [h1]

theorem Number_of_decimal (s t : Str) (m : ℕ) (e : ℤ) (h1 : trim s = t)
    (h2 : t.isEmpty = false) (h3 : parseNumeric t = signedDecimal false t)
    (h4 : parseUnsignedDecimal t = some (some (m, e))) :
    Number s = roundDouble (decimalValue m e) := by
  simp [Number, h1, h2, h3, signedDecimal, h4]

theorem Number_of_infinity (s : Str) (h1 : trim s = "Infinity".toList) :
    Number s = .inf false := by
  have h2 : parseNumeric "Infinity".toList = signedDecimal false "Infinity".toList := rfl
  have h3 : parseUnsignedDecimal "Infinity".toList = some none := by decide
  have h4 : ("Infinity".toList).isEmpty = false := rfl
  unfold Number
  simp only [h1, h4, h2, signedDecimal, h3]
  rfl

theorem Number_one : Number "1".toList = .fin 1 := by
  rw [Number_of_decimal "1".toList "1".toList 1 0 (by decide) rfl rfl (by decide)]
  have : decimalValue 1 0 = ((1 : ℕ) : ℚ) := by norm_num [decimalValue]
  rw [this, roundDouble_natCast 1 (by norm_num)]
  norm_num

theorem Number_one_point_five : Number "1.5".toList = .fin (3 / 2) := by
  rw [Number_of_decimal "1.5".toList "1.5".toList 15 (-1) (by decide) rfl rfl (by decide)]
  have : decimalValue 15 (-1) = 3 / 2 := by norm_num [decimalValue]
  rw [this, roundDouble_three_halves]

/-! ## The range loop -/

theorem succ_ne_nan (i : JSNum) (h : i ≠ .nan) : i.succ ≠ .nan := by
  cases i with
  | nan => exact absurd rfl h
  | fin q => exact roundDouble_ne_nan _
  | inf neg => simp [JSNum.succ]

theorem le_inf_of_ne_nan (i : JSNum) (h : i ≠ .nan) : i.le (.inf false) = true := by
  cases i with
  | nan => exact absurd rfl h
  | fin q => rfl
  | inf neg => simp [JSNum.le]

/-- With `Infinity` as its end, the range loop never finishes: its test `i <= end` holds
for every number, however many times `i` is incremented. -/
theorem rangeLoop_inf (total fuel : ℕ) (i : JSNum) (pages : List JSNum) (h : i ≠ .nan) :
    rangeLoop (.inf false) total fuel i pages = none := by
  induction fuel generalizing i pages with
  | zero =>
    unfold rangeLoop
    simp [le_inf_of_ne_nan i h]
  | succ n ih =>
    unfold rangeLoop
    simp only [le_inf_of_ne_nan i h, if_true]
    exact ih _ _ (succ_ne_nan i h)

/-! ## Unfolding the parser -/

theorem getPagesToProcess_of_nonblank (fuel : ℕ) (pageRange : Str) (total : ℕ)
    (h : (trim pageRange).isEmpty = false) :
    getPagesToProcess fuel pageRange total =
      (forEachPart fuel total (split ',' pageRange) []).map sortPages := by
  unfold getPagesToProcess
  rw [h]
  cases forEachPart fuel total (split ',' pageRange) [] <;> rfl

theorem processPart_range (fuel total : ℕ) (pages : List JSNum) (part s e : Str)
    (rest : List Str) (h1 : includes part '-' = true) (h2 : split '-' part = s :: e :: rest) :
    processPart fuel total pages part =
      if (Number s).truthy && (Number e).truthy then
        rangeLoop (Number e) total fuel (Number s) pages
      else some pages := by
  unfold processPart
  rw [h1, h2]
  rfl

theorem processPart_single (fuel total : ℕ) (pages : List JSNum) (part : Str)
    (h1 : includes part '-' = false) :
    processPart fuel total pages part =
      if (Number part).truthy && (Number part).le (.ofNat total) then
        some (setAdd pages (Number part))
      else some pages := by
  unfold processPart
  rw [h1]
  rfl

theorem forEachPart_cons (fuel total : ℕ) (part : Str) (rest : List Str) (pages : List JSNum) :
    forEachPart fuel total (part :: rest) pages =
      (processPart fuel total pages part).bind (forEachPart fuel total rest) := by
  rw [forEachPart]
  cases processPart fuel total pages part <;> rfl

theorem forEachPart_singleton (fuel total : ℕ) (part : Str) (pages : List JSNum) :
    forEachPart fuel total [part] pages = processPart fuel total pages part := by
  rw [forEachPart_cons]
  cases processPart fuel total pages part <;> rfl

theorem eval_one_to_infinity (fuel : ℕ) :
    getPagesToProcess fuel "1-Infinity".toList 10 = none := by
  have h5 : Number "Infinity".toList = .inf false := Number_of_infinity _ (by decide)
  rw [getPagesToProcess_of_nonblank _ _ _ (by decide),
    show split ',' "1-Infinity".toList = ["1-Infinity".toList] by decide,
    forEachPart_singleton,
    processPart_range fuel 10 [] _ "1".toList "Infinity".toList [] (by decide) (by decide),
    Number_one, h5, rangeLoop_inf 10 fuel _ _ (by simp)]
  rfl

theorem eval_one_point_five (fuel total : ℕ) (ht : 2 ≤ total) :
    getPagesToProcess fuel "1.5".toList total = some [.fin (3 / 2)] := by
  rw [getPagesToProcess_of_nonblank _ _ _ (by decide),
    show split ',' "1.5".toList = ["1.5".toList] by decide,
    forEachPart_singleton, processPart_single fuel total [] _ (by decide),
    Number_one_point_five]
  have h2 : (2 : ℚ) ≤ total := by exact_mod_cast ht
  have h : ((JSNum.fin (3 / 2)).truthy && (JSNum.fin (3 / 2)).le (.ofNat total)) = true := by
    simp only [JSNum.truthy, JSNum.le, JSNum.ofNat, Bool.and_eq_true, decide_eq_true_eq]
    constructor
    · norm_num
    · linarith
  rw [if_pos h]
  rfl

/-! ## Splitting -/

theorem split_ne_nil (sep : Char) (s : Str) : split sep s ≠ [] := by
  cases s with
  | nil => simp [split]
  | cons c cs =>
    unfold split
    split_ifs
    · simp
    · split <;> simp

theorem split_cons_of_ne (sep c : Char) (cs : Str) (h : c ≠ sep) :
    split sep (c :: cs) =
      (c :: (split sep cs).headD []) :: (split sep cs).tail := by
  rw [split, if_neg h]
  have := split_ne_nil sep cs
  cases hs : split sep cs with
  | nil => exact absurd hs this
  | cons p ps => rfl

theorem split_of_not_mem (sep : Char) (s : Str) (h : sep ∉ s) : split sep s = [s] := by
  induction s with
  | nil => rfl
  | cons c cs ih =>
    have hc : c ≠ sep := fun hh => h (by simp [hh])
    have hcs : sep ∉ cs := fun hh => h (List.mem_cons_of_mem _ hh)
    rw [split_cons_of_ne sep c cs hc, ih hcs]
    rfl

theorem split_append_sep (sep : Char) (a b : Str) :
    split sep (a ++ sep :: b) = split sep a ++ split sep b := by
  induction a with
  | nil => simp [split]
  | cons c cs ih =>
    by_cases hc : c = sep
    · simp [split, hc, ih]
    · rw [List.cons_append, split_cons_of_ne sep c _ hc, split_cons_of_ne sep c cs hc, ih]
      have := split_ne_nil sep cs
      cases hs : split sep cs with
      | nil => exact absurd hs this
      | cons p ps => rfl

theorem not_mem_of_mem_split (sep : Char) (s p : Str) (h : p ∈ split sep s) : sep ∉ p := by
  induction s generalizing p with
  | nil =>
    simp [split] at h
    simp [h]
  | cons c cs ih =>
    by_cases hc : c = sep
    · rw [split, if_pos hc] at h
      rcases List.mem_cons.mp h with h | h
      · simp [h]
      · exact ih p h
    · rw [split_cons_of_ne sep c cs hc] at h
      have hne := split_ne_nil sep cs
      cases hs : split sep cs with
      | nil => exact absurd hs hne
      | cons q qs =>
        rw [hs] at h ih
        simp only [List.headD_cons, List.tail_cons, List.mem_cons] at h
        rcases h with h | h
        · rw [h]
          intro hm
          rcases List.mem_cons.mp hm with hm | hm
          · exact hc hm.symm
          · exact ih q (List.mem_cons_self _ _) hm
        · exact ih p (List.mem_cons_of_mem _ h)

theorem split_join (sep : Char) (ps : List Str) (hne : ps ≠ [])
    (h : ∀ p ∈ ps, sep ∉ p) : split sep (join sep ps) = ps := by
  induction ps with
  | nil => exact absurd rfl hne
  | cons p ps ih =>
    cases ps with
    | nil => exact split_of_not_mem sep p (h p (List.mem_cons_self _ _))
    | cons q qs =>
      rw [join, split_append_sep, split_of_not_mem sep p (h p (List.mem_cons_self _ _)),
        ih (by simp) (fun r hr => h r (List.mem_cons_of_mem _ hr))]
      rfl

theorem mem_join_of_mem (sep : Char) (ps : List Str) (p : Str) (c : Char)
    (hp : p ∈ ps) (hc : c ∈ p) : c ∈ join sep ps := by
  induction ps with
  | nil => exact absurd hp (List.not_mem_nil _)
  | cons q qs ih =>
    cases qs with
    | nil =>
      rw [List.mem_singleton] at hp
      rw [join, ← hp]
      exact hc
    | cons r rs =>
      rw [join]
      rcases List.mem_cons.mp hp with hp | hp
      · rw [← hp]
        exact List.mem_append_left _ hc
      · exact List.mem_append_right _ (List.mem_cons_of_mem _ (ih hp))

/-! ## Trimming -/

theorem dropWhile_append_of_all {p : Char → Bool} (l t : Str) (h : ∀ c ∈ l, p c = true) :
    (l ++ t).dropWhile p = t.dropWhile p := by
  induction l with
  | nil => rfl
  | cons c cs ih =>
    have hc : p c = true := h c (List.mem_cons_self _ _)
    simp only [List.cons_append, List.dropWhile_cons, hc, if_true]
    exact ih (fun d hd => h d (List.mem_cons_of_mem _ hd))

theorem dropWhile_of_head {p : Char → Bool} (c : Char) (t : Str) (h : p c = false) :
    (c :: t).dropWhile p = c :: t := by
  simp [List.dropWhile_cons, h]

theorem trim_sublist (s : Str) : (trim s).Sublist s := by
  unfold trim trimEnd trimStart
  have h1 : ((s.dropWhile isWhiteSpace).reverse.dropWhile isWhiteSpace).Sublist
      (s.dropWhile isWhiteSpace).reverse := List.dropWhile_sublist _
  have h2 := List.reverse_sublist.mpr h1
  rw [List.reverse_reverse] at h2
  exact h2.trans (List.dropWhile_sublist _)

theorem mem_of_mem_trim (s : Str) (c : Char) (h : c ∈ trim s) : c ∈ s :=
  (trim_sublist s).subset h

/-- Trimming removes the white space around a text that neither starts nor ends with
white space. -/
theorem trim_padded (l m r : Str) (hl : ∀ c ∈ l, isWhiteSpace c = true)
    (hr : ∀ c ∈ r, isWhiteSpace c = true) (hm : m ≠ [])
    (hhead : ∀ c ∈ m.head?, isWhiteSpace c = false)
    (hlast : ∀ c ∈ m.getLast?, isWhiteSpace c = false) : trim (l ++ m ++ r) = m := by
  have h1 : trimStart (l ++ m ++ r) = m ++ r := by
    unfold trimStart
    rw [List.append_assoc, dropWhile_append_of_all l _ hl]
    cases m with
    | nil => exact absurd rfl hm
    | cons c cs =>
      exact dropWhile_of_head c _ (hhead c (by simp))
  unfold trim trimEnd
  rw [h1, List.reverse_append,
    dropWhile_append_of_all r.reverse _ (fun c hc => hr c (List.mem_reverse.mp hc))]
  have hrev : m.reverse ≠ [] := by simpa using hm
  cases hm' : m.reverse with
  | nil => exact absurd hm' hrev
  | cons c cs =>
    have hc : isWhiteSpace c = false := by
      apply hlast
      have : m.getLast? = m.reverse.head? := by simp [List.head?_reverse]
      rw [this, hm']
      simp
    rw [dropWhile_of_head c cs hc, ← hm', List.reverse_reverse]

theorem isDigitIn_ten_iff (c : Char) : isDigitIn 10 c = true ↔ 48 ≤ c.toNat ∧ c.toNat ≤ 57 := by
  unfold isDigitIn digitValue
  simp only
  split_ifs with h1 h2 h3
  · simp only [decide_eq_true_eq]
    constructor
    · intro _; exact h1
    · intro _; omega
  · simp only [decide_eq_true_eq]
    constructor
    · intro h; omega
    · intro h; omega
  · simp only [decide_eq_true_eq]
    constructor
    · intro h; omega
    · intro h; omega
  · simp only [Bool.false_eq_true, false_iff]
    exact h1

theorem not_isWhiteSpace_of_isDigit (c : Char) (h : isDigitIn 10 c = true) :
    isWhiteSpace c = false := by
  have hd := (isDigitIn_ten_iff c).mp h
  unfold isWhiteSpace
  simp only [Bool.or_eq_false_iff, beq_eq_false_iff_ne, Bool.and_eq_false_iff,
    decide_eq_false_iff_not]
  refine ⟨⟨⟨⟨⟨⟨⟨⟨⟨⟨⟨⟨⟨⟨?_, ?_⟩, ?_⟩, ?_⟩, ?_⟩, ?_⟩, ?_⟩, ?_⟩, ?_⟩, ?_⟩, ?_⟩, ?_⟩, ?_⟩, ?_⟩, ?_⟩ <;> omega

/-! ## `Number` on integer literals -/

theorem parseNumeric_of_digits (ds : Str) (h : ∀ c ∈ ds, isDigitIn 10 c = true) :
    parseNumeric ds = signedDecimal false ds := by
  unfold parseNumeric
  split
  · exact absurd (h 'b' (by simp)) (by decide)
  · exact absurd (h 'B' (by simp)) (by decide)
  · exact absurd (h 'o' (by simp)) (by decide)
  · exact absurd (h 'O' (by simp)) (by decide)
  · exact absurd (h 'x' (by simp)) (by decide)
  · exact absurd (h 'X' (by simp)) (by decide)
  · exact absurd (h '+' (by simp)) (by decide)
  · exact absurd (h '-' (by simp)) (by decide)
  · rfl

theorem parseUnsignedDecimal_of_digits (ds : Str) (hne : ds ≠ [])
    (h : ∀ c ∈ ds, isDigitIn 10 c = true) :
    parseUnsignedDecimal ds = some (some (digitsValue 10 ds, 0)) := by
  have hinf : ds ≠ "Infinity".toList := by
    intro heq
    exact absurd (h 'I' (by rw [heq]; decide)) (by decide)
  have htake : ds.takeWhile (isDigitIn 10) = ds := List.takeWhile_eq_self_iff.mpr h
  have hdrop : ds.dropWhile (isDigitIn 10) = [] := List.dropWhile_eq_nil_iff.mpr h
  have hemp : ds.isEmpty = false := by
    cases ds with
    | nil => exact absurd rfl hne
    | cons c cs => rfl
  unfold parseUnsignedDecimal
  rw [if_neg hinf]
  simp only [htake, hdrop, hemp, parseExponent]
  rfl

theorem isDigits_iff (radix : ℕ) (ds : Str) :
    isDigits radix ds = true ↔ ds ≠ [] ∧ ∀ c ∈ ds, isDigitIn radix c = true := by
  unfold isDigits
  cases ds with
  | nil => simp
  | cons c cs => simp

/-- On an integer literal, `Number` is the binary64 value nearest to the literal's value. -/
theorem Number_of_intLiteral (s : Str) (n : ℕ) (h : IsIntLiteral s n) :
    Number s = roundDouble n := by
  obtain ⟨l, ds, r, hs, hl, hr, hd, hv⟩ := h
  obtain ⟨hne, hall⟩ := (isDigits_iff 10 ds).mp hd
  have htrim : trim s = ds := by
    rw [hs]
    refine trim_padded l ds r hl hr hne ?_ ?_
    · intro c hc
      exact not_isWhiteSpace_of_isDigit c (hall c (List.mem_of_mem_head? hc))
    · intro c hc
      exact not_isWhiteSpace_of_isDigit c (hall c (List.mem_of_mem_getLast? hc))
  have hemp : ds.isEmpty = false := by
    cases ds with
    | nil => exact absurd rfl hne
    | cons c cs => rfl
  unfold Number
  simp only [htrim, hemp, parseNumeric_of_digits ds hall, signedDecimal,
    parseUnsignedDecimal_of_digits ds hne hall, hv]
  simp [decimalValue]

theorem Number_of_safe_intLiteral (s : Str) (n : ℕ) (h : IsIntLiteral s n) (hn : n < 2 ^ 53) :
    Number s = .ofNat n := by
  rw [Number_of_intLiteral s n h, roundDouble_natCast n hn.le]
  rfl

/-! ## Signs -/

theorem signedDecimal_false_nonneg (s : Str) :
    signedDecimal false s = .nan ∨ signedDecimal false s = .inf false ∨
      ∃ q, 0 ≤ q ∧ signedDecimal false s = .fin q := by
  unfold signedDecimal
  split
  · exact Or.inl rfl
  · exact Or.inr (Or.inl rfl)
  · rename_i m e _
    have hv : 0 ≤ decimalValue m e := by
      unfold decimalValue
      exact mul_nonneg (Nat.cast_nonneg m) (zpow_nonneg (by norm_num) e)
    simp only [Bool.false_eq_true, if_false]
    rcases roundDouble_of_nonneg _ hv with h | h
    · exact Or.inr (Or.inl h)
    · exact Or.inr (Or.inr h)

theorem nonDecimal_nonneg (radix : ℕ) (ds : Str) :
    nonDecimal radix ds = .nan ∨ nonDecimal radix ds = .inf false ∨
      ∃ q, 0 ≤ q ∧ nonDecimal radix ds = .fin q := by
  unfold nonDecimal
  split_ifs
  · rcases roundDouble_of_nonneg _ (Nat.cast_nonneg (digitsValue radix ds)) with h | h
    · exact Or.inr (Or.inl h)
    · exact Or.inr (Or.inr h)
  · exact Or.inl rfl

/-- A string without hyphen has no negative Number value. -/
theorem Number_nonneg_of_no_hyphen (s : Str) (h : '-' ∉ s) :
    Number s = .nan ∨ Number s = .inf false ∨ ∃ q, 0 ≤ q ∧ Number s = .fin q := by
  have ht : '-' ∉ trim s := fun hm => h (mem_of_mem_trim s _ hm)
  unfold Number
  simp only
  split_ifs
  · exact Or.inr (Or.inr ⟨0, le_refl _, rfl⟩)
  · generalize trim s = t at ht
    unfold parseNumeric
    split
    · exact nonDecimal_nonneg _ _
    · exact nonDecimal_nonneg _ _
    · exact nonDecimal_nonneg _ _
    · exact nonDecimal_nonneg _ _
    · exact nonDecimal_nonneg _ _
    · exact nonDecimal_nonneg _ _
    · exact signedDecimal_false_nonneg _
    · exact absurd (List.mem_cons_self _ _) ht
    · exact signedDecimal_false_nonneg _

theorem positive_of_truthy (x : JSNum) (ht : x.truthy = true)
    (h : x = .nan ∨ x = .inf false ∨ ∃ q, 0 ≤ q ∧ x = .fin q) : x.Positive := by
  rcases h with h | h | ⟨q, hq, h⟩
  · rw [h] at ht
    exact absurd ht (by simp [JSNum.truthy])
  · rw [h]
    rfl
  · rw [h] at ht ⊢
    have : q ≠ 0 := by simpa [JSNum.truthy] using ht
    exact lt_of_le_of_ne hq (Ne.symm this)

theorem Number_positive (s : Str) (h : '-' ∉ s) (ht : (Number s).truthy = true) :
    (Number s).Positive :=
  positive_of_truthy _ ht (Number_nonneg_of_no_hyphen s h)

theorem succ_positive (i : JSNum) (h : i.Positive) : i.succ.Positive := by
  cases i with
  | nan => exact h
  | fin q =>
    have hq : (0 : ℚ) < q := h
    rcases roundDouble_of_one_le (q + 1) (by linarith) with h1 | ⟨y, hy, h1⟩
    · show (roundDouble (q + 1)).Positive
      rw [h1]
      rfl
    · show (roundDouble (q + 1)).Positive
      rw [h1]
      show (0 : ℚ) < y
      linarith
  | inf neg => exact h

theorem le_ofNat_of_positive (i : JSNum) (total : ℕ) (h : i.Positive)
    (hle : i.le (.ofNat total) = true) : ∃ q : ℚ, i = .fin q ∧ 0 < q ∧ q ≤ total := by
  cases i with
  | nan => exact absurd h id
  | fin q =>
    refine ⟨q, rfl, h, ?_⟩
    simpa [JSNum.le, JSNum.ofNat] using hle
  | inf neg =>
    have : neg = false := h
    rw [this] at hle
    exact absurd hle (by simp [JSNum.le, JSNum.ofNat])

/-! ## The invariant of the `Set` -/

theorem pagesOK_nil (total : ℕ) : PagesOK total [] :=
  ⟨List.nodup_nil, fun _ h => absurd h (List.not_mem_nil _)⟩

theorem pagesOK_setAdd (total : ℕ) (pages : List JSNum) (x : JSNum) (h : PagesOK total pages)
    (hx : ∃ q : ℚ, x = .fin q ∧ 0 < q ∧ q ≤ total) : PagesOK total (setAdd pages x) := by
  unfold setAdd
  split_ifs with hm
  · exact h
  · refine ⟨?_, ?_⟩
    · rw [List.nodup_append]
      refine ⟨h.1, List.nodup_singleton x, ?_⟩
      intro a ha hb
      rw [List.mem_singleton] at hb
      exact hm (hb ▸ ha)
    · intro y hy
      rcases List.mem_append.mp hy with hy | hy
      · exact h.2 y hy
      · rw [List.mem_singleton] at hy
        rw [hy]
        exact hx

theorem pagesOK_rangeLoop (stop : JSNum) (total fuel : ℕ) (i : JSNum) (pages r : List JSNum)
    (hi : i.Positive) (h : PagesOK total pages)
    (hr : rangeLoop stop total fuel i pages = some r) : PagesOK total r := by
  induction fuel generalizing i pages with
  | zero =>
    unfold rangeLoop at hr
    split_ifs at hr
    rw [← Option.some.inj hr]
    exact h
  | succ n ih =>
    unfold rangeLoop at hr
    split_ifs at hr with h1 h2
    · exact ih _ _ (succ_positive i hi)
        (pagesOK_setAdd total pages i h (le_ofNat_of_positive i total hi h2)) hr
    · exact ih _ _ (succ_positive i hi) h hr
    · rw [← Option.some.inj hr]
      exact h

theorem not_mem_of_includes_false (part : Str) (ch : Char) (h : includes part ch = false) :
    ch ∉ part := by
  intro hm
  have : includes part ch = true := by
    unfold includes
    simpa using hm
  rw [h] at this
  exact absurd this (by simp)

theorem mem_of_includes (part : Str) (ch : Char) (h : includes part ch = true) :
    ch ∈ part := by
  unfold includes at h
  simpa using h

theorem processPart_of_hyphen (fuel total : ℕ) (pages : List JSNum) (part : Str)
    (h1 : includes part '-' = true) :
    processPart fuel total pages part =
      if (((split '-' part).map Number).getD 0 .nan).truthy &&
          (((split '-' part).map Number).getD 1 .nan).truthy then
        rangeLoop (((split '-' part).map Number).getD 1 .nan) total fuel
          (((split '-' part).map Number).getD 0 .nan) pages
      else some pages := by
  unfold processPart
  rw [h1]
  rfl

theorem pagesOK_processPart (fuel total : ℕ) (pages r : List JSNum) (part : Str)
    (h : PagesOK total pages) (hr : processPart fuel total pages part = some r) :
    PagesOK total r := by
  cases h1 : includes part '-' with
  | true =>
    rw [processPart_of_hyphen fuel total pages part h1] at hr
    split_ifs at hr with h2
    · simp only [Bool.and_eq_true] at h2
      cases hs : split '-' part with
      | nil => exact absurd hs (split_ne_nil _ _)
      | cons s rest =>
        rw [hs] at hr h2
        have hstart : ((s :: rest).map Number).getD 0 .nan = Number s := rfl
        rw [hstart] at hr h2
        have hno : '-' ∉ s :=
          not_mem_of_mem_split '-' part s (by rw [hs]; exact List.mem_cons_self _ _)
        exact pagesOK_rangeLoop _ total fuel _ pages r (Number_positive s hno h2.1) h hr
    · rw [← Option.some.inj hr]
      exact h
  | false =>
    rw [processPart_single fuel total pages part h1] at hr
    split_ifs at hr with h3
    · simp only [Bool.and_eq_true] at h3
      rw [← Option.some.inj hr]
      have hno : '-' ∉ part := not_mem_of_includes_false part '-' h1
      exact pagesOK_setAdd total pages _ h
        (le_ofNat_of_positive _ total (Number_positive part hno h3.1) h3.2)
    · rw [← Option.some.inj hr]
      exact h

theorem pagesOK_forEachPart (fuel total : ℕ) (parts : List Str) (pages r : List JSNum)
    (h : PagesOK total pages) (hr : forEachPart fuel total parts pages = some r) :
    PagesOK total r := by
  induction parts generalizing pages with
  | nil =>
    rw [forEachPart] at hr
    rw [← Option.some.inj hr]
    exact h
  | cons part rest ih =>
    rw [forEachPart_cons] at hr
    cases hp : processPart fuel total pages part with
    | none =>
      rw [hp] at hr
      exact absurd hr (by simp)
    | some pages' =>
      rw [hp] at hr
      exact ih pages' (pagesOK_processPart fuel total pages pages' part h hp) hr

/-! ## Sorting -/

theorem sortsBefore_fin (a b : ℚ) : sortsBefore (.fin a) (.fin b) ↔ a ≤ b := by
  unfold sortsBefore JSNum.lt
  simp

theorem sortPages_map_fin (qs : List ℚ) :
    sortPages (qs.map .fin) = (qs.insertionSort (· ≤ ·)).map .fin := by
  unfold sortPages
  exact (List.map_insertionSort (r := (· ≤ ·)) (s := sortsBefore) JSNum.fin qs
    (fun a _ b _ => (sortsBefore_fin a b).symm)).symm

theorem eq_map_fin_of_pagesOK (total : ℕ) (pages : List JSNum) (h : PagesOK total pages) :
    pages = (pages.map JSNum.value).map .fin := by
  rw [List.map_map]
  conv_lhs => rw [← List.map_id pages]
  apply List.map_congr_left
  intro x hx
  obtain ⟨q, hq, _⟩ := h.2 x hx
  rw [hq]
  rfl

/-- Sorting a `Set` of the parser gives a strictly ascending list of the same elements. -/
theorem sortPages_of_pagesOK (total : ℕ) (pages : List JSNum) (h : PagesOK total pages) :
    (sortPages pages).Pairwise (fun a b => a.lt b = true) ∧
      ∀ x, x ∈ sortPages pages ↔ x ∈ pages := by
  constructor
  · have he := eq_map_fin_of_pagesOK total pages h
    have hnd : (pages.map JSNum.value).Nodup := by
      have hn := h.1
      rw [he] at hn
      exact List.Nodup.of_map _ hn
    rw [he, sortPages_map_fin]
    have hs : ((pages.map JSNum.value).insertionSort (· ≤ ·)).Sorted (· ≤ ·) :=
      List.sorted_insertionSort _ _
    have hnd' : ((pages.map JSNum.value).insertionSort (· ≤ ·)).Nodup :=
      (List.perm_insertionSort _ _).nodup_iff.mpr hnd
    have hlt : ((pages.map JSNum.value).insertionSort (· ≤ ·)).Sorted (· < ·) :=
      hs.lt_of_le hnd'
    rw [List.pairwise_map]
    refine List.Pairwise.imp ?_ hlt
    intro a b hab
    simpa [JSNum.lt] using hab
  · intro x
    unfold sortPages
    exact (List.perm_insertionSort _ _).mem_iff

/-! ## Integers stay integers -/

theorem roundPos_natCast_whole (n : ℕ) (h : 2 ^ 53 < n) : ∃ m : ℕ, roundPos (n : ℚ) = m := by
  have hk : 53 ≤ Nat.log 2 n := by
    calc 53 = Nat.log 2 (2 ^ 53) := (Nat.log_pow (by norm_num) 53).symm
      _ ≤ Nat.log 2 n := Nat.log_mono_right h.le
  have hlog : max (Int.log 2 (n : ℚ)) (-1022) = (Nat.log 2 n : ℤ) := by
    rw [Int.log_natCast]
    omega
  have hexp : ((Nat.log 2 n : ℤ) - 52) = ((Nat.log 2 n - 52 : ℕ) : ℤ) := by omega
  unfold roundPos
  simp only [hlog, hexp, zpow_natCast]
  set k := Nat.log 2 n - 52
  have hq : (0 : ℚ) ≤ (n : ℚ) / 2 ^ k :=
    div_nonneg (Nat.cast_nonneg n) (pow_nonneg (by norm_num) k)
  have hz : (0 : ℤ) ≤ roundHalfEven ((n : ℚ) / 2 ^ k) :=
    le_trans (Int.floor_nonneg.mpr hq) (floor_le_roundHalfEven _)
  refine ⟨(roundHalfEven ((n : ℚ) / 2 ^ k)).toNat * 2 ^ k, ?_⟩
  have hcast : ((roundHalfEven ((n : ℚ) / 2 ^ k)).toNat : ℤ) = roundHalfEven ((n : ℚ) / 2 ^ k) :=
    Int.toNat_of_nonneg hz
  have hcast' : (((roundHalfEven ((n : ℚ) / 2 ^ k)).toNat : ℕ) : ℚ) =
      (roundHalfEven ((n : ℚ) / 2 ^ k) : ℚ) := by
    exact_mod_cast congrArg (Int.cast : ℤ → ℚ) hcast
  rw [Nat.cast_mul, hcast']
  norm_num

/-- The Number value nearest to a non-negative integer is an integer or `+Infinity`. -/
theorem roundDouble_natCast_whole (n : ℕ) : (roundDouble (n : ℚ)).Whole := by
  rcases le_or_lt n (2 ^ 53) with h | h
  · rw [roundDouble_natCast n h]
    intro q hq
    exact ⟨n, (JSNum.fin.inj hq).symm⟩
  · obtain ⟨m, hm⟩ := roundPos_natCast_whole n h
    have hpos : (0 : ℚ) < n := by
      have : 0 < n := lt_trans (by norm_num) h
      exact_mod_cast this
    unfold roundDouble
    rw [if_neg hpos.ne', abs_of_pos hpos, hm]
    simp only [not_lt.mpr hpos.le, if_false]
    split_ifs
    · intro q hq
      exact absurd hq (by simp)
    · intro q hq
      exact ⟨m, (JSNum.fin.inj hq).symm⟩

theorem succ_whole (i : JSNum) (h : i.Whole) : i.succ.Whole := by
  cases i with
  | nan => exact h
  | fin q =>
    obtain ⟨n, hn⟩ := h q rfl
    show (roundDouble (q + 1)).Whole
    have : q + 1 = ((n + 1 : ℕ) : ℚ) := by rw [hn]; push_cast; ring
    rw [this]
    exact roundDouble_natCast_whole (n + 1)
  | inf neg => exact h

theorem whole_setAdd (pages : List JSNum) (x : JSNum) (h : ∀ y ∈ pages, y.Whole)
    (hx : x.Whole) : ∀ y ∈ setAdd pages x, y.Whole := by
  unfold setAdd
  split_ifs
  · exact h
  · intro y hy
    rcases List.mem_append.mp hy with hy | hy
    · exact h y hy
    · rw [List.mem_singleton] at hy
      rw [hy]
      exact hx

theorem whole_rangeLoop (stop : JSNum) (total fuel : ℕ) (i : JSNum) (pages r : List JSNum)
    (hi : i.Whole) (h : ∀ y ∈ pages, y.Whole)
    (hr : rangeLoop stop total fuel i pages = some r) : ∀ y ∈ r, y.Whole := by
  induction fuel generalizing i pages with
  | zero =>
    unfold rangeLoop at hr
    split_ifs at hr
    rw [← Option.some.inj hr]
    exact h
  | succ n ih =>
    unfold rangeLoop at hr
    split_ifs at hr with h1 h2
    · exact ih _ _ (succ_whole i hi) (whole_setAdd pages i h hi) hr
    · exact ih _ _ (succ_whole i hi) h hr
    · rw [← Option.some.inj hr]
      exact h

theorem whole_processPart (fuel total : ℕ) (pages r : List JSNum) (part : Str)
    (hw : ∀ token ∈ (split '-' part).head?, (Number token).Whole)
    (h : ∀ y ∈ pages, y.Whole) (hr : processPart fuel total pages part = some r) :
    ∀ y ∈ r, y.Whole := by
  cases h1 : includes part '-' with
  | true =>
    rw [processPart_of_hyphen fuel total pages part h1] at hr
    split_ifs at hr with h2
    · cases hs : split '-' part with
      | nil => exact absurd hs (split_ne_nil _ _)
      | cons s rest =>
        rw [hs] at hr hw
        have hstart : ((s :: rest).map Number).getD 0 .nan = Number s := rfl
        rw [hstart] at hr
        exact whole_rangeLoop _ total fuel _ pages r (hw s (by simp)) h hr
    · rw [← Option.some.inj hr]
      exact h
  | false =>
    rw [processPart_single fuel total pages part h1] at hr
    have hsplit : split '-' part = [part] :=
      split_of_not_mem '-' part (not_mem_of_includes_false part '-' h1)
    rw [hsplit] at hw
    split_ifs at hr with h3
    · rw [← Option.some.inj hr]
      exact whole_setAdd pages _ h (hw part (by simp))
    · rw [← Option.some.inj hr]
      exact h

theorem whole_forEachPart (fuel total : ℕ) (parts : List Str) (pages r : List JSNum)
    (hw : ∀ part ∈ parts, ∀ token ∈ (split '-' part).head?, (Number token).Whole)
    (h : ∀ y ∈ pages, y.Whole) (hr : forEachPart fuel total parts pages = some r) :
    ∀ y ∈ r, y.Whole := by
  induction parts generalizing pages with
  | nil =>
    rw [forEachPart] at hr
    rw [← Option.some.inj hr]
    exact h
  | cons part rest ih =>
    rw [forEachPart_cons] at hr
    cases hp : processPart fuel total pages part with
    | none =>
      rw [hp] at hr
      exact absurd hr (by simp)
    | some pages' =>
      rw [hp] at hr
      exact ih pages' (fun p hp' => hw p (List.mem_cons_of_mem _ hp'))
        (whole_processPart fuel total pages pages' part (hw part (List.mem_cons_self _ _)) h hp)
        hr

/-! ## The range loop on integers -/

theorem ofNat_injective : Function.Injective JSNum.ofNat := by
  intro a b h
  have : (a : ℚ) = b := JSNum.fin.inj h
  exact_mod_cast this

theorem setAdd_map_ofNat (ns : List ℕ) (n : ℕ) :
    setAdd (ns.map .ofNat) (.ofNat n) = (addPage ns n).map .ofNat := by
  unfold setAdd addPage
  have hm : JSNum.ofNat n ∈ ns.map JSNum.ofNat ↔ n ∈ ns :=
    List.mem_map_of_injective ofNat_injective
  by_cases h : n ∈ ns
  · rw [if_pos (hm.mpr h), if_pos h]
  · rw [if_neg (fun hh => h (hm.mp hh)), if_neg h]
    simp

theorem le_ofNat_iff (a b : ℕ) : (JSNum.ofNat a).le (.ofNat b) = true ↔ a ≤ b := by
  simp [JSNum.le, JSNum.ofNat]

theorem truthy_ofNat_iff (a : ℕ) : (JSNum.ofNat a).truthy = true ↔ a ≠ 0 := by
  simp [JSNum.truthy, JSNum.ofNat]

theorem succ_ofNat (a : ℕ) (h : a < 2 ^ 53) : (JSNum.ofNat a).succ = .ofNat (a + 1) := by
  show roundDouble ((a : ℚ) + 1) = .fin ((a + 1 : ℕ) : ℚ)
  have : (a : ℚ) + 1 = ((a + 1 : ℕ) : ℚ) := by push_cast; ring
  rw [this]
  exact roundDouble_natCast (a + 1) h

/-- Below `2 ^ 53` the range loop visits the integers from its start to its end, and it
finishes once it is allowed as many executions of its body as there are such integers. -/
theorem rangeLoop_ofNat (total b : ℕ) (hb : b < 2 ^ 53) (d : ℕ) :
    ∀ (a fuel : ℕ) (ns : List ℕ), b + 1 - a = d → d ≤ fuel →
      rangeLoop (.ofNat b) total fuel (.ofNat a) (ns.map .ofNat) =
        some ((addRange total ns a b).map .ofNat) := by
  induction d with
  | zero =>
    intro a fuel ns hd _
    have hgt : ¬ (a ≤ b) := by omega
    unfold rangeLoop
    rw [if_neg (fun h => hgt ((le_ofNat_iff a b).mp h))]
    unfold addRange
    rw [hd]
    rfl
  | succ d ih =>
    intro a fuel ns hd hfuel
    have hle : a ≤ b := by omega
    obtain ⟨f, rfl⟩ : ∃ f, fuel = f + 1 := ⟨fuel - 1, by omega⟩
    unfold rangeLoop
    rw [if_pos ((le_ofNat_iff a b).mpr hle)]
    simp only
    rw [succ_ofNat a (by omega)]
    have hpages : (if (JSNum.ofNat a).le (.ofNat total) = true
        then setAdd (ns.map .ofNat) (.ofNat a) else ns.map .ofNat) =
        (if a ≤ total then addPage ns a else ns).map .ofNat := by
      by_cases ht : a ≤ total
      · rw [if_pos ((le_ofNat_iff a total).mpr ht), if_pos ht, setAdd_map_ofNat]
      · rw [if_neg (fun h => ht ((le_ofNat_iff a total).mp h)), if_neg ht]
    rw [hpages, ih (a + 1) f _ (by omega) (by omega)]
    unfold addRange
    have : b + 1 - a = (b + 1 - (a + 1)) + 1 := by omega
    rw [this, List.range'_succ, List.foldl_cons]

/-! ## Blank and non-blank expressions -/

theorem blank_of_trim_eq_nil (s : Str) (h : trim s = []) : Blank s := by
  unfold trim trimEnd trimStart at h
  have h1 : (s.dropWhile isWhiteSpace).reverse.dropWhile isWhiteSpace = [] := by
    simpa using h
  have h2 : ∀ c ∈ s.dropWhile isWhiteSpace, isWhiteSpace c = true := by
    intro c hc
    exact List.dropWhile_eq_nil_iff.mp h1 c (List.mem_reverse.mpr hc)
  intro c hc
  rw [← List.takeWhile_append_dropWhile isWhiteSpace s] at hc
  rcases List.mem_append.mp hc with hc | hc
  · exact (List.mem_takeWhile_imp hc)
  · exact h2 c hc

theorem trim_isEmpty_iff (s : Str) : (trim s).isEmpty = true ↔ Blank s := by
  rw [List.isEmpty_iff]
  exact ⟨blank_of_trim_eq_nil s, trim_eq_nil_of_blank s⟩

theorem trim_nonblank (s : Str) (h : ¬ Blank s) : (trim s).isEmpty = false := by
  cases he : (trim s).isEmpty with
  | true => exact absurd ((trim_isEmpty_iff s).mp he) h
  | false => rfl

/-! ## Well-formed parts -/

theorem mem_intLiteral (s : Str) (n : ℕ) (h : IsIntLiteral s n) (c : Char) (hc : c ∈ s) :
    isWhiteSpace c = true ∨ isDigitIn 10 c = true := by
  obtain ⟨l, ds, r, hs, hl, hr, hd, _⟩ := h
  rw [hs] at hc
  rcases List.mem_append.mp hc with hc | hc
  · rcases List.mem_append.mp hc with hc | hc
    · exact Or.inl (hl c hc)
    · exact Or.inr (((isDigits_iff 10 ds).mp hd).2 c hc)
  · exact Or.inl (hr c hc)

theorem hyphen_not_mem_intLiteral (s : Str) (n : ℕ) (h : IsIntLiteral s n) : '-' ∉ s := by
  intro hc
  rcases mem_intLiteral s n h '-' hc with h1 | h1
  · exact absurd h1 (by decide)
  · exact absurd h1 (by decide)

theorem comma_not_mem_intLiteral (s : Str) (n : ℕ) (h : IsIntLiteral s n) : ',' ∉ s := by
  intro hc
  rcases mem_intLiteral s n h ',' hc with h1 | h1
  · exact absurd h1 (by decide)
  · exact absurd h1 (by decide)

theorem exists_digit_of_intLiteral (s : Str) (n : ℕ) (h : IsIntLiteral s n) :
    ∃ c ∈ s, isWhiteSpace c = false := by
  obtain ⟨l, ds, r, hs, _, _, hd, _⟩ := h
  obtain ⟨hne, hall⟩ := (isDigits_iff 10 ds).mp hd
  cases ds with
  | nil => exact absurd rfl hne
  | cons c cs =>
    refine ⟨c, ?_, not_isWhiteSpace_of_isDigit c (hall c (List.mem_cons_self _ _))⟩
    rw [hs]
    simp

theorem comma_not_mem_of_spells (p : PagePart) (s : Str) (h : p.Spells s) : ',' ∉ s := by
  cases p with
  | single n => exact comma_not_mem_intLiteral s n h
  | range a b =>
    obtain ⟨s₁, s₂, hs, h1, h2⟩ := h
    rw [hs]
    intro hc
    rcases List.mem_append.mp hc with hc | hc
    · exact comma_not_mem_intLiteral s₁ a h1 hc
    · rcases List.mem_cons.mp hc with hc | hc
      · exact absurd hc (by decide)
      · exact comma_not_mem_intLiteral s₂ b h2 hc

theorem not_blank_of_spells (p : PagePart) (s : Str) (h : p.Spells s) :
    ∃ c ∈ s, isWhiteSpace c = false := by
  cases p with
  | single n => exact exists_digit_of_intLiteral s n h
  | range a b =>
    obtain ⟨s₁, s₂, hs, h1, _⟩ := h
    obtain ⟨c, hc, hw⟩ := exists_digit_of_intLiteral s₁ a h1
    exact ⟨c, by rw [hs]; exact List.mem_append_left _ hc, hw⟩

/-- On a well-formed part whose literals are below `2 ^ 53`, the body of the `forEach`
adds the integers the part asks for. -/
theorem processPart_of_spells (fuel total : ℕ) (ns : List ℕ) (p : PagePart) (s : Str)
    (hs : p.Spells s) (hsafe : p.Safe) (hfuel : p.iterations ≤ fuel) :
    processPart fuel total (ns.map .ofNat) s = some ((p.addTo total ns).map .ofNat) := by
  cases p with
  | single n =>
    have hno : includes s '-' = false := by
      cases hi : includes s '-' with
      | true => exact absurd (mem_of_includes s '-' hi) (hyphen_not_mem_intLiteral s n hs)
      | false => rfl
    rw [processPart_single fuel total _ s hno, Number_of_safe_intLiteral s n hs hsafe]
    simp only [PagePart.addTo]
    by_cases h : n ≠ 0 ∧ n ≤ total
    · have hb : ((JSNum.ofNat n).truthy && (JSNum.ofNat n).le (.ofNat total)) = true := by
        rw [Bool.and_eq_true]
        exact ⟨(truthy_ofNat_iff n).mpr h.1, (le_ofNat_iff n total).mpr h.2⟩
      rw [if_pos hb, if_pos h, setAdd_map_ofNat]
    · have hb : ¬ (((JSNum.ofNat n).truthy && (JSNum.ofNat n).le (.ofNat total)) = true) := by
        rw [Bool.and_eq_true]
        intro hh
        exact h ⟨(truthy_ofNat_iff n).mp hh.1, (le_ofNat_iff n total).mp hh.2⟩
      rw [if_neg hb, if_neg h]
  | range a b =>
    obtain ⟨s₁, s₂, hs', h1, h2⟩ := hs
    have hinc : includes s '-' = true := by
      unfold includes
      rw [hs']
      simp
    have hsplit : split '-' s = [s₁, s₂] := by
      rw [hs', split_append_sep, split_of_not_mem '-' s₁ (hyphen_not_mem_intLiteral s₁ a h1),
        split_of_not_mem '-' s₂ (hyphen_not_mem_intLiteral s₂ b h2)]
      rfl
    rw [processPart_range fuel total _ s s₁ s₂ [] hinc hsplit,
      Number_of_safe_intLiteral s₁ a h1 hsafe.1, Number_of_safe_intLiteral s₂ b h2 hsafe.2]
    simp only [PagePart.addTo]
    by_cases h : a ≠ 0 ∧ b ≠ 0
    · have hb : ((JSNum.ofNat a).truthy && (JSNum.ofNat b).truthy) = true := by
        rw [Bool.and_eq_true]
        exact ⟨(truthy_ofNat_iff a).mpr h.1, (truthy_ofNat_iff b).mpr h.2⟩
      rw [if_pos hb, if_pos h]
      exact rangeLoop_ofNat total b hsafe.2 (b + 1 - a) a fuel ns rfl hfuel
    · have hb : ¬ (((JSNum.ofNat a).truthy && (JSNum.ofNat b).truthy) = true) := by
        rw [Bool.and_eq_true]
        intro hh
        exact h ⟨(truthy_ofNat_iff a).mp hh.1, (truthy_ofNat_iff b).mp hh.2⟩
      rw [if_neg hb, if_neg h]

theorem forEachPart_of_spells (fuel total : ℕ) (specs : List PagePart) (parts : List Str)
    (hsp : List.Forall₂ PagePart.Spells specs parts) (hsafe : ∀ p ∈ specs, p.Safe)
    (hfuel : ∀ p ∈ specs, p.iterations ≤ fuel) (ns : List ℕ) :
    forEachPart fuel total parts (ns.map .ofNat) =
      some ((specs.foldl (PagePart.addTo total) ns).map .ofNat) := by
  induction hsp generalizing ns with
  | nil => rfl
  | @cons p s ps ss hhead _ ih =>
    rw [forEachPart_cons,
      processPart_of_spells fuel total ns p s hhead (hsafe p (List.mem_cons_self _ _))
        (hfuel p (List.mem_cons_self _ _))]
    exact ih (fun q hq => hsafe q (List.mem_cons_of_mem _ hq))
      (fun q hq => hfuel q (List.mem_cons_of_mem _ hq)) _

/-! ## The integers a list of parts asks for -/

theorem mem_addPage (ns : List ℕ) (n m : ℕ) : m ∈ addPage ns n ↔ m ∈ ns ∨ m = n := by
  unfold addPage
  split_ifs with h
  · constructor
    · exact Or.inl
    · rintro (hm | hm)
      · exact hm
      · rw [hm]; exact h
  · simp

theorem nodup_addPage (ns : List ℕ) (n : ℕ) (h : ns.Nodup) : (addPage ns n).Nodup := by
  unfold addPage
  split_ifs with hm
  · exact h
  · rw [List.nodup_append]
    refine ⟨h, List.nodup_singleton n, ?_⟩
    intro a ha hb
    rw [List.mem_singleton] at hb
    exact hm (hb ▸ ha)

theorem mem_foldl_addPage (total : ℕ) (xs ns : List ℕ) (m : ℕ) :
    m ∈ xs.foldl (fun acc n => if n ≤ total then addPage acc n else acc) ns ↔
      m ∈ ns ∨ (m ∈ xs ∧ m ≤ total) := by
  induction xs generalizing ns with
  | nil => simp
  | cons x xs ih =>
    rw [List.foldl_cons, ih]
    by_cases hx : x ≤ total
    · rw [if_pos hx, mem_addPage]
      constructor
      · rintro ((h | h) | h)
        · exact Or.inl h
        · exact Or.inr ⟨by rw [h]; exact List.mem_cons_self _ _, by rw [h]; exact hx⟩
        · exact Or.inr ⟨List.mem_cons_of_mem _ h.1, h.2⟩
      · rintro (h | ⟨h, ht⟩)
        · exact Or.inl (Or.inl h)
        · rcases List.mem_cons.mp h with h | h
          · exact Or.inl (Or.inr h)
          · exact Or.inr ⟨h, ht⟩
    · rw [if_neg hx]
      constructor
      · rintro (h | h)
        · exact Or.inl h
        · exact Or.inr ⟨List.mem_cons_of_mem _ h.1, h.2⟩
      · rintro (h | ⟨h, ht⟩)
        · exact Or.inl h
        · rcases List.mem_cons.mp h with h | h
          · rw [h] at ht
            exact absurd ht hx
          · exact Or.inr ⟨h, ht⟩

theorem nodup_foldl_addPage (total : ℕ) (xs ns : List ℕ) (h : ns.Nodup) :
    (xs.foldl (fun acc n => if n ≤ total then addPage acc n else acc) ns).Nodup := by
  induction xs generalizing ns with
  | nil => exact h
  | cons x xs ih =>
    rw [List.foldl_cons]
    apply ih
    split_ifs
    · exact nodup_addPage ns x h
    · exact h

theorem mem_addRange (total : ℕ) (ns : List ℕ) (a b m : ℕ) :
    m ∈ addRange total ns a b ↔ m ∈ ns ∨ (a ≤ m ∧ m ≤ b ∧ m ≤ total) := by
  unfold addRange
  rw [mem_foldl_addPage, List.mem_range'_1]
  constructor
  · rintro (h | ⟨⟨h1, h2⟩, h3⟩)
    · exact Or.inl h
    · exact Or.inr ⟨h1, by omega, h3⟩
  · rintro (h | ⟨h1, h2, h3⟩)
    · exact Or.inl h
    · exact Or.inr ⟨⟨h1, by omega⟩, h3⟩

theorem mem_addTo (total : ℕ) (ns : List ℕ) (p : PagePart) (m : ℕ) :
    m ∈ p.addTo total ns ↔ m ∈ ns ∨ (m ≤ total ∧ p.Selects m) := by
  cases p with
  | single n =>
    simp only [PagePart.addTo, PagePart.Selects]
    split_ifs with h
    · rw [mem_addPage]
      constructor
      · rintro (hm | hm)
        · exact Or.inl hm
        · exact Or.inr ⟨by rw [hm]; exact h.2, h.1, hm⟩
      · rintro (hm | ⟨_, _, hm⟩)
        · exact Or.inl hm
        · exact Or.inr hm
    · constructor
      · exact Or.inl
      · rintro (hm | ⟨h1, h2, hm⟩)
        · exact hm
        · rw [hm] at h1
          exact absurd ⟨h2, h1⟩ h
  | range a b =>
    simp only [PagePart.addTo, PagePart.Selects]
    split_ifs with h
    · rw [mem_addRange]
      constructor
      · rintro (hm | ⟨h1, h2, h3⟩)
        · exact Or.inl hm
        · exact Or.inr ⟨h3, h.1, h.2, h1, h2⟩
      · rintro (hm | ⟨h3, _, _, h1, h2⟩)
        · exact Or.inl hm
        · exact Or.inr ⟨h1, h2, h3⟩
    · constructor
      · exact Or.inl
      · rintro (hm | ⟨_, h1, h2, _⟩)
        · exact hm
        · exact absurd ⟨h1, h2⟩ h

theorem nodup_addTo (total : ℕ) (ns : List ℕ) (p : PagePart) (h : ns.Nodup) :
    (p.addTo total ns).Nodup := by
  cases p with
  | single n =>
    simp only [PagePart.addTo]
    split_ifs
    · exact nodup_addPage ns n h
    · exact h
  | range a b =>
    simp only [PagePart.addTo]
    split_ifs
    · exact nodup_foldl_addPage total _ ns h
    · exact h

theorem mem_foldl_addTo (total : ℕ) (specs : List PagePart) (ns : List ℕ) (m : ℕ) :
    m ∈ specs.foldl (PagePart.addTo total) ns ↔
      m ∈ ns ∨ (m ≤ total ∧ ∃ p ∈ specs, p.Selects m) := by
  induction specs generalizing ns with
  | nil => simp
  | cons p ps ih =>
    rw [List.foldl_cons, ih, mem_addTo]
    constructor
    · rintro ((h | ⟨h1, h2⟩) | ⟨h1, q, hq, h2⟩)
      · exact Or.inl h
      · exact Or.inr ⟨h1, p, List.mem_cons_self _ _, h2⟩
      · exact Or.inr ⟨h1, q, List.mem_cons_of_mem _ hq, h2⟩
    · rintro (h | ⟨h1, q, hq, h2⟩)
      · exact Or.inl (Or.inl h)
      · rcases List.mem_cons.mp hq with hq | hq
        · rw [hq] at h2
          exact Or.inl (Or.inr ⟨h1, h2⟩)
        · exact Or.inr ⟨h1, q, hq, h2⟩

theorem nodup_foldl_addTo (total : ℕ) (specs : List PagePart) (ns : List ℕ) (h : ns.Nodup) :
    (specs.foldl (PagePart.addTo total) ns).Nodup := by
  induction specs generalizing ns with
  | nil => exact h
  | cons p ps ih =>
    rw [List.foldl_cons]
    exact ih _ (nodup_addTo total ns p h)

theorem sortsBefore_ofNat (a b : ℕ) : sortsBefore (.ofNat a) (.ofNat b) ↔ a ≤ b := by
  unfold JSNum.ofNat
  rw [sortsBefore_fin]
  exact Nat.cast_le

theorem sortPages_map_ofNat (ns : List ℕ) :
    sortPages (ns.map .ofNat) = (ns.insertionSort (· ≤ ·)).map .ofNat := by
  unfold sortPages
  exact (List.map_insertionSort (r := (· ≤ ·)) (s := sortsBefore) JSNum.ofNat ns
    (fun a _ b _ => (sortsBefore_ofNat a b).symm)).symm

theorem exists_spec_of_mem_parts (specs : List PagePart) (parts : List Str)
    (hsp : List.Forall₂ PagePart.Spells specs parts) (s : Str) (hs : s ∈ parts) :
    ∃ p ∈ specs, p.Spells s := by
  induction hsp with
  | nil => exact absurd hs (List.not_mem_nil _)
  | @cons p t ps ts hhead _ ih =>
    rcases List.mem_cons.mp hs with h | h
    · exact ⟨p, List.mem_cons_self _ _, h ▸ hhead⟩
    · obtain ⟨q, hq, hqs⟩ := ih h
      exact ⟨q, List.mem_cons_of_mem _ hq, hqs⟩

/-- On well-formed parts with literals below `2 ^ 53`, the parser returns the sorted list
of the integers the parts ask for, once every range loop is allowed to run to its end. -/
theorem getPagesToProcess_of_spells (fuel total : ℕ) (specs : List PagePart)
    (parts : List Str) (hne : specs ≠ [])
    (hsp : List.Forall₂ PagePart.Spells specs parts) (hsafe : ∀ p ∈ specs, p.Safe)
    (hfuel : ∀ p ∈ specs, p.iterations ≤ fuel) :
    getPagesToProcess fuel (join ',' parts) total =
      some (((specs.foldl (PagePart.addTo total) []).insertionSort (· ≤ ·)).map .ofNat) := by
  have hparts : parts ≠ [] := by
    intro h
    rw [h] at hsp
    exact hne (List.forall₂_nil_right_iff.mp hsp)
  have hcomma : ∀ s ∈ parts, ',' ∉ s := by
    intro s hs
    obtain ⟨p, _, hp⟩ := exists_spec_of_mem_parts specs parts hsp s hs
    exact comma_not_mem_of_spells p s hp
  have hnb : ¬ Blank (join ',' parts) := by
    cases hp : parts with
    | nil => exact absurd hp hparts
    | cons s ss =>
      have hs : s ∈ parts := by rw [hp]; exact List.mem_cons_self _ _
      obtain ⟨p, _, hps⟩ := exists_spec_of_mem_parts specs parts hsp s hs
      obtain ⟨c, hc, hw⟩ := not_blank_of_spells p s hps
      intro hb
      have hmem : c ∈ join ',' parts := mem_join_of_mem ',' parts s c hs hc
      rw [hp] at hmem
      have := hb c hmem
      rw [hw] at this
      exact absurd this (by simp)
  rw [getPagesToProcess_of_nonblank fuel _ total (trim_nonblank _ hnb),
    split_join ',' parts hparts hcomma]
  have := forEachPart_of_spells fuel total specs parts hsp hsafe hfuel []
  rw [List.map_nil] at this
  rw [this, Option.map_some', sortPages_map_ofNat]

/-! ## Concrete expressions -/

theorem intLiteral_of_digits (ds : Str) (h : isDigits 10 ds = true) :
    IsIntLiteral ds (digitsValue 10 ds) :=
  ⟨[], ds, [], by simp, fun _ hc => absurd hc (List.not_mem_nil _),
    fun _ hc => absurd hc (List.not_mem_nil _), h, rfl⟩

theorem spells_one_to_five : (PagePart.range 1 5).Spells "1-5".toList :=
  ⟨"1".toList, "5".toList, by decide, intLiteral_of_digits "1".toList (by decide),
    intLiteral_of_digits "5".toList (by decide)⟩

theorem spells_eight : (PagePart.single 8).Spells " 8".toList :=
  ⟨" ".toList, "8".toList, [], by decide, by decide,
    fun _ hc => absurd hc (List.not_mem_nil _), by decide, by decide⟩

theorem eval_one_to_five_and_eight :
    getPagesToProcess 5 "1-5, 8".toList 10 = some ([1, 2, 3, 4, 5, 8].map .ofNat) := by
  have h := getPagesToProcess_of_spells 5 10 [.range 1 5, .single 8]
    ["1-5".toList, " 8".toList] (by simp)
    (List.Forall₂.cons spells_one_to_five (List.Forall₂.cons spells_eight List.Forall₂.nil))
    (by
      intro p hp
      simp only [List.mem_cons, List.mem_singleton, List.not_mem_nil, or_false] at hp
      rcases hp with rfl | rfl
      · exact ⟨by norm_num, by norm_num⟩
      · show (8 : ℕ) < 2 ^ 53
        norm_num)
    (by
      intro p hp
      simp only [List.mem_cons, List.mem_singleton, List.not_mem_nil, or_false] at hp
      rcases hp with rfl | rfl <;> decide)
  have hj : join ',' ["1-5".toList, " 8".toList] = "1-5, 8".toList := by decide
  rw [hj] at h
  rw [h]
  have hl : ([PagePart.range 1 5, PagePart.single 8].foldl (PagePart.addTo 10) []).insertionSort
      (· ≤ ·) = [1, 2, 3, 4, 5, 8] := by decide
  rw [hl]

theorem exists_fuel (specs : List PagePart) : ∃ fuel, ∀ p ∈ specs, p.iterations ≤ fuel := by
  induction specs with
  | nil => exact ⟨0, fun _ h => absurd h (List.not_mem_nil _)⟩
  | cons q qs ih =>
    obtain ⟨f, hf⟩ := ih
    refine ⟨max q.iterations f, ?_⟩
    intro p hp
    rcases List.mem_cons.mp hp with h | h
    · rw [h]
      exact le_max_left _ _
    · exact le_trans (hf p h) (le_max_right _ _)

theorem sorted_lt_insertionSort (ns : List ℕ) (h : ns.Nodup) :
    (ns.insertionSort (· ≤ ·)).Sorted (· < ·) :=
  (List.sorted_insertionSort (· ≤ ·) ns).lt_of_le ((List.perm_insertionSort _ _).nodup_iff.mpr h)

/-- At `2 ^ 53` the increment `i++` leaves `i` unchanged, so a range loop that reaches it with
an end that is not smaller never finishes. -/
theorem rangeLoop_stuck (total fuel : ℕ) (pages : List JSNum) (ht : total < 2 ^ 53) :
    rangeLoop (.fin (2 ^ 53)) total fuel (.fin (2 ^ 53)) pages = none := by
  have hle : (JSNum.fin (2 ^ 53)).le (.fin (2 ^ 53)) = true := by simp [JSNum.le]
  have hnot : ¬ ((JSNum.fin (2 ^ 53)).le (.ofNat total) = true) := by
    have : (total : ℚ) < 2 ^ 53 := by exact_mod_cast ht
    simp only [JSNum.le, JSNum.ofNat, decide_eq_true_eq, not_le]
    exact this
  have hsucc : (JSNum.fin (2 ^ 53)).succ = .fin (2 ^ 53) := roundDouble_two_pow_succ
  induction fuel with
  | zero =>
    unfold rangeLoop
    rw [if_pos hle]
  | succ n ih =>
    unfold rangeLoop
    rw [if_pos hle]
    simp only
    rw [hsucc, if_neg hnot]
    exact ih

theorem spells_two_pow :
    (PagePart.range (2 ^ 53) (2 ^ 53)).Spells "9007199254740992-9007199254740992".toList :=
  ⟨"9007199254740992".toList, "9007199254740992".toList, by decide,
    ⟨[], "9007199254740992".toList, [], by decide, fun _ hc => absurd hc (List.not_mem_nil _),
      fun _ hc => absurd hc (List.not_mem_nil _), by decide, by decide⟩,
    ⟨[], "9007199254740992".toList, [], by decide, fun _ hc => absurd hc (List.not_mem_nil _),
      fun _ hc => absurd hc (List.not_mem_nil _), by decide, by decide⟩⟩

theorem eval_two_pow (fuel : ℕ) :
    getPagesToProcess fuel "9007199254740992-9007199254740992".toList 10 = none := by
  have hlit : IsIntLiteral "9007199254740992".toList (2 ^ 53) :=
    ⟨[], "9007199254740992".toList, [], by decide, fun _ hc => absurd hc (List.not_mem_nil _),
      fun _ hc => absurd hc (List.not_mem_nil _), by decide, by decide⟩
  have hnum : Number "9007199254740992".toList = .fin (2 ^ 53) := by
    rw [Number_of_intLiteral _ _ hlit, roundDouble_natCast _ (le_refl _)]
    norm_num
  rw [getPagesToProcess_of_nonblank _ _ _ (by decide),
    show split ',' "9007199254740992-9007199254740992".toList =
      ["9007199254740992-9007199254740992".toList] by decide,
    forEachPart_singleton,
    processPart_range fuel 10 [] _ "9007199254740992".toList "9007199254740992".toList []
      (by decide) (by decide),
    hnum, rangeLoop_stuck 10 fuel [] (by norm_num)]
  rfl

/-! ## Parts that add no page -/

theorem le_eq_false_of_lt (a b : JSNum) (h : b.lt a = true) : a.le b = false := by
  cases a with
  | nan => cases b <;> rfl
  | fin p =>
    cases b with
    | nan => rfl
    | fin q =>
      simp only [JSNum.lt, decide_eq_true_eq] at h
      simp only [JSNum.le, decide_eq_false_iff_not, not_le]
      exact h
    | inf n =>
      simp only [JSNum.lt] at h
      simp only [JSNum.le]
      rw [h]
      rfl
  | inf m =>
    cases b with
    | nan => rfl
    | fin q =>
      simp only [JSNum.lt, Bool.not_eq_true'] at h
      simp only [JSNum.le]
      exact h
    | inf n =>
      simp only [JSNum.lt, Bool.and_eq_true, Bool.not_eq_true'] at h
      simp only [JSNum.le]
      rw [h.1, h.2]
      rfl

theorem rangeLoop_of_not_le (stop : JSNum) (total fuel : ℕ) (i : JSNum) (pages : List JSNum)
    (h : i.le stop = false) : rangeLoop stop total fuel i pages = some pages := by
  unfold rangeLoop
  rw [h]
  rfl

theorem truthy_eq_false_of_zeroOrNonNumeric (s : Str) (h : ZeroOrNonNumeric s) :
    (Number s).truthy = false := by
  rcases h with h | h <;> rw [h] <;> simp [JSNum.truthy]

theorem processPart_of_addsNoPage (fuel total : ℕ) (pages : List JSNum) (part : Str)
    (h : AddsNoPage total part) : processPart fuel total pages part = some pages := by
  rcases h.2 with ⟨s, e, hp, hs, he, hdead⟩ | ⟨hno, hdead⟩
  · have hinc : includes part '-' = true := by
      unfold includes
      rw [hp]
      simp
    have hsplit : split '-' part = [s, e] := by
      rw [hp, split_append_sep, split_of_not_mem '-' s hs, split_of_not_mem '-' e he]
      rfl
    rw [processPart_range fuel total pages part s e [] hinc hsplit]
    rcases hdead with h1 | h1 | h1
    · rw [truthy_eq_false_of_zeroOrNonNumeric s h1]
      rfl
    · rw [truthy_eq_false_of_zeroOrNonNumeric e h1, Bool.and_false]
      rfl
    · rw [rangeLoop_of_not_le _ total fuel _ pages (le_eq_false_of_lt _ _ h1)]
      split_ifs <;> rfl
  · have hinc : includes part '-' = false := by
      cases hi : includes part '-' with
      | true => exact absurd (mem_of_includes part '-' hi) hno
      | false => rfl
    rw [processPart_single fuel total pages part hinc]
    rcases hdead with h1 | h1
    · rw [truthy_eq_false_of_zeroOrNonNumeric part h1]
      rfl
    · rw [le_eq_false_of_lt _ _ h1, Bool.and_false]
      rfl

theorem forEachPart_append (fuel total : ℕ) (xs ys : List Str) (pages : List JSNum) :
    forEachPart fuel total (xs ++ ys) pages =
      (forEachPart fuel total xs pages).bind (forEachPart fuel total ys) := by
  induction xs generalizing pages with
  | nil => rfl
  | cons x xs ih =>
    rw [List.cons_append, forEachPart_cons, forEachPart_cons]
    cases processPart fuel total pages x with
    | none => rfl
    | some pages' => exact ih pages'

theorem forEachPart_of_addsNoPage (fuel total : ℕ) (parts : List Str) (pages : List JSNum)
    (h : ∀ p ∈ parts, AddsNoPage total p) : forEachPart fuel total parts pages = some pages := by
  induction parts with
  | nil => rfl
  | cons p ps ih =>
    rw [forEachPart_cons, processPart_of_addsNoPage fuel total pages p
      (h p (List.mem_cons_self _ _))]
    exact ih (fun q hq => h q (List.mem_cons_of_mem _ hq))

theorem sortPages_nil : sortPages [] = [] := rfl

theorem getPagesToProcess_of_all_addNoPage (fuel total : ℕ) (parts : List Str)
    (hne : parts ≠ []) (h : ∀ p ∈ parts, AddsNoPage total p) (hnb : ¬ Blank (join ',' parts)) :
    getPagesToProcess fuel (join ',' parts) total = some [] := by
  rw [getPagesToProcess_of_nonblank fuel _ total (trim_nonblank _ hnb),
    split_join ',' parts hne (fun p hp => (h p hp).1),
    forEachPart_of_addsNoPage fuel total parts [] h]
  rfl

theorem not_blank_append_comma (e part : Str) : ¬ Blank (e ++ ',' :: part) := by
  intro hb
  have := hb ',' (by simp)
  exact absurd this (by decide)

theorem getPagesToProcess_append_addsNoPage (fuel total : ℕ) (e part : Str)
    (hnb : ¬ Blank e) (h : AddsNoPage total part) :
    getPagesToProcess fuel (e ++ ',' :: part) total = getPagesToProcess fuel e total := by
  rw [getPagesToProcess_of_nonblank fuel _ total (trim_nonblank _ (not_blank_append_comma e part)),
    getPagesToProcess_of_nonblank fuel _ total (trim_nonblank _ hnb),
    split_append_sep, split_of_not_mem ',' part h.1, forEachPart_append]
  cases forEachPart fuel total (split ',' e) [] with
  | none => rfl
  | some pages =>
    show (forEachPart fuel total [part] pages).map sortPages = _
    rw [forEachPart_of_addsNoPage fuel total [part] pages
      (fun p hp => by rw [List.mem_singleton] at hp; rw [hp]; exact h)]

theorem Number_of_digits (ds : Str) (n : ℕ) (h : isDigits 10 ds = true)
    (hv : digitsValue 10 ds = n) (hn : n < 2 ^ 53) : Number ds = .fin n := by
  have := Number_of_safe_intLiteral ds n (hv ▸ intLiteral_of_digits ds h) hn
  exact this

theorem addsNoPage_zero_to_five : AddsNoPage 10 "0-5".toList := by
  refine ⟨by decide, Or.inl ⟨"0".toList, "5".toList, by decide, by decide, by decide, ?_⟩⟩
  refine Or.inl (Or.inl ?_)
  rw [Number_of_digits "0".toList 0 (by decide) (by decide) (by norm_num)]
  norm_num

theorem addsNoPage_three_to_one : AddsNoPage 10 "3-1".toList := by
  refine ⟨by decide, Or.inl ⟨"3".toList, "1".toList, by decide, by decide, by decide, ?_⟩⟩
  refine Or.inr (Or.inr ?_)
  rw [Number_of_digits "3".toList 3 (by decide) (by decide) (by norm_num),
    Number_of_digits "1".toList 1 (by decide) (by decide) (by norm_num)]
  simp [JSNum.lt]

theorem addsNoPage_twelve : AddsNoPage 10 "12".toList := by
  refine ⟨by decide, Or.inr ⟨by decide, Or.inr ?_⟩⟩
  rw [Number_of_digits "12".toList 12 (by decide) (by decide) (by norm_num)]
  simp only [JSNum.lt, JSNum.ofNat, decide_eq_true_eq]
  norm_num

/-! ## The clean-up of the extracted text -/

theorem head?_dropWhile_false (p : Char → Bool) (l : Str) :
    ∀ c ∈ (l.dropWhile p).head?, p c = false := by
  induction l with
  | nil => intro c hc; simp at hc
  | cons x xs ih =>
    by_cases hx : p x = true
    · rw [List.dropWhile_cons, if_pos hx]
      exact ih
    · rw [List.dropWhile_cons, if_neg hx]
      intro c hc
      simp only [List.head?_cons, Option.mem_def, Option.some.injEq] at hc
      rw [← hc]
      simpa using hx

theorem trimEnd_initial (s : Str) : trimEnd s <+: s := by
  unfold trimEnd
  have h : (s.reverse.dropWhile isWhiteSpace) <:+ s.reverse := List.dropWhile_suffix _
  have := List.reverse_prefix.mpr h
  rwa [List.reverse_reverse] at this

theorem trim_contiguous (s : Str) : trim s <:+: s := by
  unfold trim
  exact List.IsInfix.trans (trimEnd_initial _).isInfix
    (List.dropWhile_suffix (l := s) isWhiteSpace).isInfix

theorem getLast?_trimEnd (s : Str) : ∀ c ∈ (trimEnd s).getLast?, isWhiteSpace c = false := by
  unfold trimEnd
  rw [List.getLast?_reverse]
  exact head?_dropWhile_false isWhiteSpace _

theorem head?_eq_of_initial (a b : Str) (h : a <+: b) (hne : a ≠ []) : a.head? = b.head? := by
  obtain ⟨t, rfl⟩ := h
  cases a with
  | nil => exact absurd rfl hne
  | cons x xs => rfl

theorem head?_trim (s : Str) : ∀ c ∈ (trim s).head?, isWhiteSpace c = false := by
  intro c hc
  by_cases hne : trim s = []
  · rw [hne] at hc
    simp at hc
  · have h1 : (trim s).head? = (trimStart s).head? :=
      head?_eq_of_initial _ _ (trimEnd_initial _) hne
    rw [h1] at hc
    exact head?_dropWhile_false isWhiteSpace s c hc

theorem getLast?_trim (s : Str) : ∀ c ∈ (trim s).getLast?, isWhiteSpace c = false :=
  getLast?_trimEnd _

theorem backslash_not_mem_replaceBackslashes (s : Str) : backslash ∉ replaceBackslashes s := by
  unfold replaceBackslashes
  intro h
  obtain ⟨c, _, hc⟩ := List.mem_map.mp h
  by_cases hb : c = backslash
  · rw [if_pos hb] at hc
    exact absurd hc (by decide)
  · rw [if_neg hb] at hc
    exact hb hc

theorem mem_collapseFrom (inRun : Bool) (s : Str) (c : Char) (h : c ∈ collapseFrom inRun s) :
    c ∈ s ∨ c = ' ' := by
  induction s generalizing inRun with
  | nil => simp [collapseFrom] at h
  | cons x xs ih =>
    unfold collapseFrom at h
    split_ifs at h
    · rcases ih true h with h | h
      · exact Or.inl (List.mem_cons_of_mem _ h)
      · exact Or.inr h
    · rcases List.mem_cons.mp h with h | h
      · exact Or.inr h
      · rcases ih true h with h | h
        · exact Or.inl (List.mem_cons_of_mem _ h)
        · exact Or.inr h
    · rcases List.mem_cons.mp h with h | h
      · exact Or.inl (h ▸ List.mem_cons_self _ _)
      · rcases ih false h with h | h
        · exact Or.inl (List.mem_cons_of_mem _ h)
        · exact Or.inr h

/-- After the collapse no two white-space characters are adjacent; once a run has been
replaced, the output goes on with a character that is not white space. -/
theorem chain_collapseFrom (inRun : Bool) (s : Str) :
    (collapseFrom inRun s).Chain' (fun a b => ¬ (isWhiteSpace a = true ∧ isWhiteSpace b = true)) ∧
      (inRun = true → ∀ c ∈ (collapseFrom inRun s).head?, isWhiteSpace c = false) := by
  induction s generalizing inRun with
  | nil =>
    refine ⟨by simp [collapseFrom], ?_⟩
    intro _ c hc
    simp [collapseFrom] at hc
  | cons x xs ih =>
    unfold collapseFrom
    by_cases hx : isWhiteSpace x = true
    · rw [if_pos hx]
      cases inRun with
      | true =>
        simp only [if_true]
        exact ⟨(ih true).1, fun _ => (ih true).2 rfl⟩
      | false =>
        simp only [Bool.false_eq_true, if_false]
        refine ⟨List.Chain'.cons' (ih true).1 ?_, fun h => absurd h (by simp)⟩
        intro y hy hh
        have := (ih true).2 rfl y hy
        rw [this] at hh
        exact absurd hh.2 (by simp)
    · rw [if_neg hx]
      refine ⟨List.Chain'.cons' (ih false).1 ?_, ?_⟩
      · intro y _ hh
        exact hx hh.1
      · intro _ c hc
        simp only [List.head?_cons, Option.mem_def, Option.some.injEq] at hc
        rw [← hc]
        simpa using hx

/-- The cleaned text has no backslash, no two adjacent white-space characters, and no
white space at either end. -/
theorem normalize_clean (s : Str) :
    backslash ∉ normalize s ∧
    (normalize s).Chain' (fun a b => ¬ (isWhiteSpace a = true ∧ isWhiteSpace b = true)) ∧
    (∀ c ∈ (normalize s).head?, isWhiteSpace c = false) ∧
    (∀ c ∈ (normalize s).getLast?, isWhiteSpace c = false) := by
  refine ⟨?_, ?_, head?_trim _, getLast?_trim _⟩
  · intro h
    have h1 : backslash ∈ collapseWhiteSpace (replaceBackslashes s) :=
      (trim_sublist _).subset h
    rcases mem_collapseFrom false _ _ h1 with h2 | h2
    · exact backslash_not_mem_replaceBackslashes s h2
    · exact absurd h2 (by decide)
  · exact List.Chain'.infix (chain_collapseFrom false _).1 (trim_contiguous _)

/-! ## Reading the pages -/

theorem readPages_of_ok (pdf : PDFDocument) (toks : JSNum → List Str) (pages : List JSNum)
    (h : ∀ p ∈ pages, pdf.pageText p = .ok (toks p)) (fullText : Str) (requested : List JSNum) :
    readPages pdf pages fullText requested =
      (.ok (fullText ++ pages.flatMap fun p => pageRun (toks p)), requested ++ pages) := by
  induction pages generalizing fullText requested with
  | nil => simp [readPages]
  | cons p ps ih =>
    rw [readPages, h p (List.mem_cons_self _ _)]
    simp only
    rw [ih (fun q hq => h q (List.mem_cons_of_mem _ hq))]
    simp [List.flatMap_cons, List.append_assoc]

theorem readPages_error_external (pdf : PDFDocument) (pages : List JSNum) (fullText : Str)
    (requested : List JSNum) (e : JSError) (req : List JSNum)
    (h : readPages pdf pages fullText requested = (.error e, req)) : ∃ m, e = .external m := by
  induction pages generalizing fullText requested with
  | nil => simp [readPages] at h
  | cons p ps ih =>
    rw [readPages] at h
    cases hp : pdf.pageText p with
    | error m =>
      rw [hp] at h
      simp only [Prod.mk.injEq, Except.error.injEq] at h
      exact ⟨m, h.1.symm⟩
    | ok items =>
      rw [hp] at h
      exact ih _ _ h

/-! ## Removing the fence markers -/

theorem fenceHtml_eq : fenceHtml = backtick :: backtick :: backtick :: "html".toList := by
  decide

theorem fence_eq : fence = [backtick, backtick, backtick] := by decide

theorem removeFencesFrom_html (rest : Str) :
    removeFencesFrom 0 (fenceHtml ++ rest) = removeFencesFrom 0 rest := by
  have h : fenceHtml.isPrefixOf (fenceHtml ++ rest) = true := by
    rw [List.isPrefixOf_iff_prefix]
    exact List.prefix_append _ _
  have hc : fenceHtml ++ rest =
      backtick :: (backtick :: backtick :: 'h' :: 't' :: 'm' :: 'l' :: rest) := by
    rw [fenceHtml_eq]
    rfl
  rw [hc] at h ⊢
  rw [removeFencesFrom, if_pos h]
  simp only [removeFencesFrom]

theorem removeFencesFrom_fence (rest : Str) (h : "html".toList.isPrefixOf rest = false) :
    removeFencesFrom 0 (fence ++ rest) = removeFencesFrom 0 rest := by
  have h1 : fenceHtml.isPrefixOf (fence ++ rest) = false := by
    rw [fenceHtml_eq, fence_eq]
    simp only [List.cons_append, List.nil_append, List.isPrefixOf_cons₂, beq_self_eq_true,
      Bool.true_and]
    exact h
  have h2 : fence.isPrefixOf (fence ++ rest) = true := by
    rw [List.isPrefixOf_iff_prefix]
    exact List.prefix_append _ _
  have hc : fence ++ rest = backtick :: (backtick :: backtick :: rest) := by
    rw [fence_eq]
    rfl
  rw [hc] at h1 h2 ⊢
  rw [removeFencesFrom, if_neg (by rw [h1]; simp), if_pos h2]
  simp only [removeFencesFrom]

theorem removeFencesFrom_cons_of_ne (c : Char) (cs : Str) (h : c ≠ backtick) :
    removeFencesFrom 0 (c :: cs) = c :: removeFencesFrom 0 cs := by
  have h1 : fenceHtml.isPrefixOf (c :: cs) = false := by
    rw [fenceHtml_eq, List.isPrefixOf_cons₂]
    have : (backtick == c) = false := by
      rw [beq_eq_false_iff_ne]
      exact fun hh => h hh.symm
    rw [this]
    rfl
  have h2 : fence.isPrefixOf (c :: cs) = false := by
    rw [fence_eq, List.isPrefixOf_cons₂]
    have : (backtick == c) = false := by
      rw [beq_eq_false_iff_ne]
      exact fun hh => h hh.symm
    rw [this]
    rfl
  rw [removeFencesFrom, if_neg (by rw [h1]; simp), if_neg (by rw [h2]; simp)]

/-- The scan copies a text without backtick and goes on after it. -/
theorem removeFencesFrom_append (pre rest : Str) (h : backtick ∉ pre) :
    removeFencesFrom 0 (pre ++ rest) = pre ++ removeFencesFrom 0 rest := by
  induction pre with
  | nil => rfl
  | cons c cs ih =>
    have hc : c ≠ backtick := fun hh => h (by rw [hh]; exact List.mem_cons_self _ _)
    rw [List.cons_append, removeFencesFrom_cons_of_ne c _ hc,
      ih (fun hh => h (List.mem_cons_of_mem _ hh))]
    rfl

theorem removeFences_of_no_backtick (r : Str) (h : backtick ∉ r) : removeFences r = r := by
  have := removeFencesFrom_append r [] h
  rw [List.append_nil] at this
  unfold removeFences
  rw [this]
  simp [removeFencesFrom]

theorem removeFences_html (pre rest : Str) (h : backtick ∉ pre) :
    removeFences (pre ++ fenceHtml ++ rest) = pre ++ removeFences rest := by
  unfold removeFences
  rw [List.append_assoc, removeFencesFrom_append pre _ h, removeFencesFrom_html]

theorem removeFences_fence (pre rest : Str) (h : backtick ∉ pre)
    (hr : "html".toList.isPrefixOf rest = false) :
    removeFences (pre ++ fence ++ rest) = pre ++ removeFences rest := by
  unfold removeFences
  rw [List.append_assoc, removeFencesFrom_append pre _ h, removeFencesFrom_fence rest hr]

theorem removeFencesFrom_backtick (cs : Str) (h : ¬ fence <+: backtick :: cs) :
    removeFencesFrom 0 (backtick :: cs) = backtick :: removeFencesFrom 0 cs := by
  have h2 : fence.isPrefixOf (backtick :: cs) = false := by
    cases hp : fence.isPrefixOf (backtick :: cs) with
    | true => exact absurd (List.isPrefixOf_iff_prefix.mp hp) h
    | false => rfl
  have h1 : fenceHtml.isPrefixOf (backtick :: cs) = false := by
    cases hp : fenceHtml.isPrefixOf (backtick :: cs) with
    | true =>
      have hpre : fenceHtml <+: backtick :: cs := List.isPrefixOf_iff_prefix.mp hp
      have hf : fence <+: fenceHtml := by
        rw [fenceHtml_eq, fence_eq]
        exact ⟨"html".toList, rfl⟩
      exact absurd (hf.trans hpre) h
    | false => rfl
  rw [removeFencesFrom, if_neg (by rw [h1]; simp), if_neg (by rw [h2]; simp)]

/-- The scan leaves no fence marker behind, and it never makes a text start with more
backticks than it had. -/
theorem removeFencesFrom_no_fence (n : ℕ) :
    ∀ w : Str, w.length ≤ n →
      ¬ fence <:+: removeFencesFrom 0 w ∧
      (¬ [backtick] <+: w → ¬ [backtick] <+: removeFencesFrom 0 w) ∧
      (¬ [backtick, backtick] <+: w → ¬ [backtick, backtick] <+: removeFencesFrom 0 w) := by
  induction n with
  | zero =>
    intro w hw
    have : w = [] := List.length_eq_zero.mp (Nat.le_zero.mp hw)
    rw [this]
    simp [removeFencesFrom, fence_eq]
  | succ n ih =>
    intro w hw
    cases w with
    | nil => simp [removeFencesFrom, fence_eq]
    | cons c cs =>
      have hcs : cs.length ≤ n := by
        simp only [List.length_cons] at hw
        omega
      by_cases hc : c = backtick
      · subst hc
        by_cases hf : fence <+: backtick :: cs
        · -- a marker starts here: the scan resumes after it
          have hrest : ∃ rest, rest.length ≤ n ∧
              removeFencesFrom 0 (backtick :: cs) = removeFencesFrom 0 rest := by
            by_cases hh : fenceHtml <+: backtick :: cs
            · obtain ⟨rest, hr⟩ := hh
              refine ⟨rest, ?_, ?_⟩
              · have := congrArg List.length hr
                rw [List.length_append, fenceHtml_eq] at this
                simp only [List.length_cons] at this hw
                omega
              · rw [← hr, removeFencesFrom_html]
            · obtain ⟨rest, hr⟩ := hf
              refine ⟨rest, ?_, ?_⟩
              · have := congrArg List.length hr
                rw [List.length_append, fence_eq] at this
                simp only [List.length_cons] at this hw
                omega
              · rw [← hr]
                apply removeFencesFrom_fence
                cases hp : "html".toList.isPrefixOf rest with
                | false => rfl
                | true =>
                  exfalso
                  apply hh
                  obtain ⟨t, ht⟩ := List.isPrefixOf_iff_prefix.mp hp
                  refine ⟨t, ?_⟩
                  rw [← hr, ← ht, fenceHtml_eq, fence_eq]
                  rfl
          obtain ⟨rest, hlen, heq⟩ := hrest
          rw [heq]
          refine ⟨(ih rest hlen).1, ?_, ?_⟩
          · intro hno
            exact absurd ⟨cs, rfl⟩ hno
          · intro hno
            exfalso
            apply hno
            obtain ⟨t, ht⟩ := hf
            rw [fence_eq] at ht
            exact ⟨backtick :: t, by rw [← ht]; rfl⟩
        · -- one or two backticks: they are copied
          rw [removeFencesFrom_backtick cs hf]
          have hcs2 : ¬ [backtick, backtick] <+: cs := by
            rintro ⟨t, ht⟩
            apply hf
            rw [fence_eq]
            exact ⟨t, by rw [← ht]; rfl⟩
          have hout2 := (ih cs hcs).2.2 hcs2
          refine ⟨?_, ?_, ?_⟩
          · rw [List.infix_cons_iff]
            rintro (h | h)
            · apply hout2
              obtain ⟨t, ht⟩ := h
              rw [fence_eq] at ht
              simp only [List.cons_append, List.nil_append, List.cons.injEq, true_and] at ht
              exact ⟨t, by rw [← ht]; rfl⟩
            · exact (ih cs hcs).1 h
          · intro hno
            exact absurd ⟨cs, rfl⟩ hno
          · intro hno
            have hcs1 : ¬ [backtick] <+: cs := by
              rintro ⟨t, ht⟩
              apply hno
              exact ⟨t, by rw [← ht]; rfl⟩
            have hout1 := (ih cs hcs).2.1 hcs1
            rintro ⟨t, ht⟩
            apply hout1
            simp only [List.cons_append, List.nil_append, List.cons.injEq, true_and] at ht
            exact ⟨t, by rw [← ht]; rfl⟩
      · rw [removeFencesFrom_cons_of_ne c cs hc]
        refine ⟨?_, ?_, ?_⟩
        · rw [List.infix_cons_iff]
          rintro (h | h)
          · obtain ⟨t, ht⟩ := h
            rw [fence_eq] at ht
            simp only [List.cons_append, List.cons.injEq] at ht
            exact hc ht.1.symm
          · exact (ih cs hcs).1 h
        · intro _
          rintro ⟨t, ht⟩
          simp only [List.cons_append, List.cons.injEq] at ht
          exact hc ht.1.symm
        · intro _
          rintro ⟨t, ht⟩
          simp only [List.cons_append, List.cons.injEq] at ht
          exact hc ht.1.symm

theorem no_fence_removeFences (r : Str) : ¬ fence <:+: removeFences r :=
  (removeFencesFrom_no_fence r.length r (le_refl _)).1

theorem no_fence_cleanResponse (r : Str) : ¬ fence <:+: cleanResponse r := by
  intro h
  exact no_fence_removeFences r (h.trans (trim_contiguous _))

theorem removeFencesFrom_sublist (skip : ℕ) (w : Str) : (removeFencesFrom skip w).Sublist w := by
  induction w generalizing skip with
  | nil => simp [removeFencesFrom]
  | cons c cs ih =>
    cases skip with
    | succ k =>
      rw [removeFencesFrom]
      exact (ih k).cons c
    | zero =>
      rw [removeFencesFrom]
      split_ifs
      · exact (ih 6).cons c
      · exact (ih 2).cons c
      · exact (ih 0).cons₂ c

theorem cleanResponse_sublist (r : Str) : (cleanResponse r).Sublist r :=
  (trim_sublist _).trans (removeFencesFrom_sublist 0 r)

/-! ## The page set in general -/

theorem allPages_eq (total : ℕ) : allPages total = (List.range' 1 total).map .ofNat := by
  unfold allPages
  rw [List.range'_eq_map_range, List.map_map]
  apply List.map_congr_left
  intro i _
  simp [Nat.add_comm]

theorem lt_ofNat_iff (a b : ℕ) : (JSNum.ofNat a).lt (.ofNat b) = true ↔ a < b := by
  simp [JSNum.lt, JSNum.ofNat]

theorem pairwise_allPages (total : ℕ) :
    (allPages total).Pairwise (fun a b => a.lt b = true) := by
  rw [allPages_eq, List.pairwise_map]
  refine List.Pairwise.imp ?_ (List.pairwise_lt_range' 1 total)
  intro a b hab
  exact (lt_ofNat_iff a b).mpr hab

theorem mem_allPages (total : ℕ) (x : JSNum) (h : x ∈ allPages total) :
    ∃ n : ℕ, x = .ofNat n ∧ 1 ≤ n ∧ n ≤ total := by
  rw [allPages_eq] at h
  obtain ⟨n, hn, hx⟩ := List.mem_map.mp h
  rw [List.mem_range'_1] at hn
  exact ⟨n, hx.symm, hn.1, by omega⟩

theorem getPagesToProcess_of_blank (fuel : ℕ) (pageRange : Str) (total : ℕ)
    (h : Blank pageRange) : getPagesToProcess fuel pageRange total = some (allPages total) := by
  unfold getPagesToProcess
  rw [if_pos ((trim_isEmpty_iff pageRange).mpr h)]

/-- Whatever the expression, a list the parser returns is strictly ascending with all its
elements finite and in `(0, total]`; they are integers when no start token is a fraction. -/
theorem pageSet_of_getPagesToProcess (fuel : ℕ) (pageRange : Str) (total : ℕ) (l : List JSNum)
    (h : getPagesToProcess fuel pageRange total = some l) :
    l.Pairwise (fun a b => a.lt b = true) ∧
    (∀ x ∈ l, ∃ q : ℚ, x = .fin q ∧ 0 < q ∧ q ≤ total) ∧
    (WholeStarts pageRange → ∀ x ∈ l, ∃ n : ℕ, x = .ofNat n ∧ 1 ≤ n ∧ n ≤ total) := by
  by_cases hb : Blank pageRange
  · rw [getPagesToProcess_of_blank fuel pageRange total hb] at h
    rw [← Option.some.inj h]
    refine ⟨pairwise_allPages total, ?_, ?_⟩
    · intro x hx
      obtain ⟨n, hn, h1, h2⟩ := mem_allPages total x hx
      refine ⟨n, hn, ?_, ?_⟩
      · have : 0 < n := h1
        exact_mod_cast this
      · exact_mod_cast h2
    · intro _ x hx
      exact mem_allPages total x hx
  · rw [getPagesToProcess_of_nonblank fuel pageRange total (trim_nonblank _ hb)] at h
    cases hf : forEachPart fuel total (split ',' pageRange) [] with
    | none =>
      rw [hf] at h
      exact absurd h (by simp)
    | some pages =>
      rw [hf] at h
      have hl : l = sortPages pages := (Option.some.inj h).symm
      have hok : PagesOK total pages :=
        pagesOK_forEachPart fuel total _ [] pages (pagesOK_nil total) hf
      have hsort := sortPages_of_pagesOK total pages hok
      rw [hl]
      refine ⟨hsort.1, ?_, ?_⟩
      · intro x hx
        exact hok.2 x ((hsort.2 x).mp hx)
      · intro hw x hx
        have hxp : x ∈ pages := (hsort.2 x).mp hx
        obtain ⟨q, hq, hpos, hle⟩ := hok.2 x hxp
        have hwhole : x.Whole :=
          whole_forEachPart fuel total _ [] pages hw
            (fun y hy => absurd hy (List.not_mem_nil _)) hf x hxp
        obtain ⟨n, hn⟩ := hwhole q hq
        rw [hn] at hpos hle
        refine ⟨n, by rw [hq, hn]; rfl, ?_, ?_⟩
        · have : 0 < n := by exact_mod_cast hpos
          exact this
        · exact_mod_cast hle

/-! ## When the range loop finishes -/

theorem sub_half_le_roundHalfEven (x : ℚ) : x - 1 / 2 ≤ (roundHalfEven x : ℚ) := by
  unfold roundHalfEven
  simp only
  have h1 : (⌊x⌋ : ℚ) ≤ x := Int.floor_le x
  have h2 : x < (⌊x⌋ : ℚ) + 1 := Int.lt_floor_add_one x
  split_ifs with ha hb hc
  · linarith
  · push_cast
    linarith
  · have : x - ⌊x⌋ = 1 / 2 := le_antisymm (not_lt.mp hb) (not_lt.mp ha)
    linarith
  · push_cast
    linarith

/-- Rounding a value that is at least `1` loses at most `1 / 2`, unless the result is
`2 ^ 53` or more. -/
theorem roundPos_ge (x : ℚ) (hx : 1 ≤ x) : x - 1 / 2 ≤ roundPos x ∨ 2 ^ 53 ≤ roundPos x := by
  have hlog0 : 0 ≤ Int.log 2 x := by
    rw [Int.log_of_one_le_right 2 hx]
    exact Int.natCast_nonneg _
  rcases le_or_lt (Int.log 2 x) 52 with h | h
  · left
    have hmax : max (Int.log 2 x) (-1022) = Int.log 2 x := by omega
    unfold roundPos
    simp only [hmax]
    set e := Int.log 2 x with he
    have hulp : (0 : ℚ) < 2 ^ (e - 52) := zpow_pos (by norm_num) _
    have hulp1 : (2 : ℚ) ^ (e - 52) ≤ 1 := by
      have : (2 : ℚ) ^ (e - 52) ≤ 2 ^ (0 : ℤ) :=
        zpow_le_zpow_right₀ (by norm_num) (by omega)
      simpa using this
    have hr := sub_half_le_roundHalfEven (x / 2 ^ (e - 52))
    have hmul := mul_le_mul_of_nonneg_right hr hulp.le
    have hexp : (x / 2 ^ (e - 52) - 1 / 2) * 2 ^ (e - 52) = x - 2 ^ (e - 52) / 2 := by
      field_simp
      ring
    rw [hexp] at hmul
    linarith
  · right
    have h53 : (2 : ℚ) ^ (53 : ℤ) ≤ 2 ^ Int.log 2 x :=
      zpow_le_zpow_right₀ (by norm_num) (by omega)
    have h53' : (2 : ℚ) ^ (53 : ℤ) = 2 ^ 53 := by norm_num
    rw [h53'] at h53
    exact le_trans h53 (zpow_log_le_roundPos x hx)

/-- One increment moves a positive `i` up by at least `1 / 2`, or to `2 ^ 53` or beyond. -/
theorem succ_ge (q : ℚ) (hq : 0 < q) :
    (JSNum.fin q).succ = .inf false ∨
      ∃ y, (JSNum.fin q).succ = .fin y ∧ 0 < y ∧ (q + 1 / 2 ≤ y ∨ 2 ^ 53 ≤ y) := by
  show roundDouble (q + 1) = .inf false ∨
    ∃ y, roundDouble (q + 1) = .fin y ∧ 0 < y ∧ (q + 1 / 2 ≤ y ∨ 2 ^ 53 ≤ y)
  have hx : 1 ≤ q + 1 := by linarith
  have h0 : q + 1 ≠ 0 := by linarith
  have hnn : ¬ (q + 1 < 0) := by linarith
  have habs : |q + 1| = q + 1 := abs_of_nonneg (by linarith)
  unfold roundDouble
  simp only [h0, if_false, habs, hnn, decide_False]
  split_ifs
  · exact Or.inl rfl
  · refine Or.inr ⟨roundPos (q + 1), rfl, ?_, ?_⟩
    · have := one_le_roundPos (q + 1) hx
      linarith
    · rcases roundPos_ge (q + 1) hx with h | h
      · left
        linarith
      · exact Or.inr h

theorem rangeLoop_returns_of_not_le (stop : JSNum) (total fuel : ℕ) (i : JSNum)
    (pages : List JSNum) (h : i.le stop = false) :
    ∃ r, rangeLoop stop total fuel i pages = some r :=
  ⟨pages, rangeLoop_of_not_le stop total fuel i pages h⟩

/-- With a finite end below `2 ^ 53` the range loop finishes: from a positive `i` it needs
at most twice the distance to the end, plus one, executions of its body. -/
theorem rangeLoop_returns_fin (total : ℕ) (e : ℚ) (he : e < 2 ^ 53) (n : ℕ) :
    ∀ (q : ℚ) (pages : List JSNum) (fuel : ℕ), 0 < q → e - q < n / 2 → n ≤ fuel →
      ∃ r, rangeLoop (.fin e) total fuel (.fin q) pages = some r := by
  induction n with
  | zero =>
    intro q pages fuel _ hd _
    apply rangeLoop_returns_of_not_le
    have : e < q := by
      simp only [Nat.cast_zero, zero_div] at hd
      linarith
    simp only [JSNum.le, decide_eq_false_iff_not, not_le]
    exact this
  | succ n ih =>
    intro q pages fuel hq hd hfuel
    by_cases hle : q ≤ e
    · obtain ⟨f, rfl⟩ : ∃ f, fuel = f + 1 := ⟨fuel - 1, by omega⟩
      have hle' : (JSNum.fin q).le (.fin e) = true := by simpa [JSNum.le] using hle
      unfold rangeLoop
      rw [if_pos hle']
      simp only
      rcases succ_ge q hq with hs | ⟨y, hs, hy0, hy⟩
      · rw [hs]
        apply rangeLoop_returns_of_not_le
        rfl
      · rw [hs]
        apply ih y _ f hy0 _ (by omega)
        push_cast at hd
        rcases hy with hy | hy
        · linarith
        · have : (0 : ℚ) ≤ n / 2 := by positivity
          linarith
    · apply rangeLoop_returns_of_not_le
      simpa [JSNum.le] using hle

theorem rangeLoop_returns (stop : JSNum) (total : ℕ) (i : JSNum) (hstop : stop.BelowTwoPow53)
    (hi : i.Positive) :
    ∃ n, ∀ (pages : List JSNum) (fuel : ℕ), n ≤ fuel →
      ∃ r, rangeLoop stop total fuel i pages = some r := by
  cases stop with
  | nan =>
    refine ⟨0, fun pages fuel _ => rangeLoop_returns_of_not_le _ total fuel i pages ?_⟩
    cases i <;> rfl
  | inf neg =>
    have hneg : neg = true := hstop
    refine ⟨0, fun pages fuel _ => rangeLoop_returns_of_not_le _ total fuel i pages ?_⟩
    cases i with
    | nan => rfl
    | fin q => rw [hneg]; rfl
    | inf m =>
      have hm : m = false := hi
      rw [hneg, hm]
      rfl
  | fin e =>
    have he : e < 2 ^ 53 := hstop
    cases i with
    | nan => exact absurd hi id
    | inf m =>
      have hm : m = false := hi
      refine ⟨0, fun pages fuel _ => rangeLoop_returns_of_not_le _ total fuel _ pages ?_⟩
      rw [hm]
      rfl
    | fin q =>
      have hq : (0 : ℚ) < q := hi
      obtain ⟨n, hn⟩ : ∃ n : ℕ, e - q < n / 2 := by
        obtain ⟨n, hn⟩ := exists_nat_gt (2 * (e - q))
        exact ⟨n, by linarith⟩
      exact ⟨n, fun pages fuel hf => rangeLoop_returns_fin total e he n q pages fuel hq hn hf⟩

theorem processPart_returns (total : ℕ) (part : Str)
    (hb : (((split '-' part).map Number).getD 1 .nan).BelowTwoPow53) :
    ∃ n, ∀ (pages : List JSNum) (fuel : ℕ), n ≤ fuel →
      ∃ r, processPart fuel total pages part = some r := by
  cases h1 : includes part '-' with
  | true =>
    by_cases h2 : ((((split '-' part).map Number).getD 0 .nan).truthy &&
        (((split '-' part).map Number).getD 1 .nan).truthy) = true
    · have hpos : (((split '-' part).map Number).getD 0 .nan).Positive := by
        simp only [Bool.and_eq_true] at h2
        cases hs : split '-' part with
        | nil => exact absurd hs (split_ne_nil _ _)
        | cons s rest =>
          rw [hs] at h2
          have hstart : ((s :: rest).map Number).getD 0 .nan = Number s := rfl
          rw [hstart] at h2 ⊢
          exact Number_positive s
            (not_mem_of_mem_split '-' part s (by rw [hs]; exact List.mem_cons_self _ _)) h2.1
      obtain ⟨n, hn⟩ := rangeLoop_returns _ total _ hb hpos
      refine ⟨n, fun pages fuel hf => ?_⟩
      rw [processPart_of_hyphen fuel total pages part h1, if_pos h2]
      exact hn pages fuel hf
    · refine ⟨0, fun pages fuel _ => ⟨pages, ?_⟩⟩
      rw [processPart_of_hyphen fuel total pages part h1, if_neg h2]
  | false =>
    refine ⟨0, fun pages fuel _ => ?_⟩
    rw [processPart_single fuel total pages part h1]
    split_ifs
    · exact ⟨_, rfl⟩
    · exact ⟨_, rfl⟩

theorem forEachPart_returns (total : ℕ) (parts : List Str)
    (hb : ∀ part ∈ parts, (((split '-' part).map Number).getD 1 .nan).BelowTwoPow53) :
    ∃ n, ∀ (pages : List JSNum) (fuel : ℕ), n ≤ fuel →
      ∃ r, forEachPart fuel total parts pages = some r := by
  induction parts with
  | nil => exact ⟨0, fun pages _ _ => ⟨pages, rfl⟩⟩
  | cons p ps ih =>
    obtain ⟨n₁, h₁⟩ := processPart_returns total p (hb p (List.mem_cons_self _ _))
    obtain ⟨n₂, h₂⟩ := ih (fun q hq => hb q (List.mem_cons_of_mem _ hq))
    refine ⟨max n₁ n₂, fun pages fuel hf => ?_⟩
    obtain ⟨r₁, hr₁⟩ := h₁ pages fuel (le_trans (le_max_left _ _) hf)
    obtain ⟨r₂, hr₂⟩ := h₂ r₁ fuel (le_trans (le_max_right _ _) hf)
    exact ⟨r₂, by rw [forEachPart_cons, hr₁]; exact hr₂⟩

/-- The parser returns on every expression whose range ends parse below `2 ^ 53`. -/
theorem returns_of_boundedEnds (pageRange : Str) (total : ℕ) (hb : BoundedEnds pageRange) :
    ∃ l, Returns pageRange total l := by
  by_cases hblank : Blank pageRange
  · exact ⟨_, 0, getPagesToProcess_of_blank 0 pageRange total hblank⟩
  · obtain ⟨n, hn⟩ := forEachPart_returns total (split ',' pageRange) hb
    obtain ⟨r, hr⟩ := hn [] n (le_refl _)
    refine ⟨sortPages r, n, ?_⟩
    rw [getPagesToProcess_of_nonblank n pageRange total (trim_nonblank _ hblank), hr]
    rfl

/-! ## The words of the extracted text -/

theorem trim_decompose (s : Str) :
    ∃ l t, Blank l ∧ Blank t ∧ s = l ++ trim s ++ t := by
  refine ⟨s.takeWhile isWhiteSpace,
    ((s.dropWhile isWhiteSpace).reverse.takeWhile isWhiteSpace).reverse, ?_, ?_, ?_⟩
  · intro c hc
    exact List.mem_takeWhile_imp hc
  · intro c hc
    exact List.mem_takeWhile_imp (List.mem_reverse.mp hc)
  · have h1 : s = s.takeWhile isWhiteSpace ++ s.dropWhile isWhiteSpace :=
      (List.takeWhile_append_dropWhile isWhiteSpace s).symm
    have h2 : s.dropWhile isWhiteSpace =
        ((s.dropWhile isWhiteSpace).reverse.dropWhile isWhiteSpace).reverse ++
          ((s.dropWhile isWhiteSpace).reverse.takeWhile isWhiteSpace).reverse := by
      rw [← List.reverse_append, List.takeWhile_append_dropWhile, List.reverse_reverse]
    rw [List.append_assoc]
    unfold trim trimEnd trimStart
    rw [← h2]
    exact h1

theorem isWhiteSpace_replace_of_sep (c : Char) (h : isSeparator c = true) :
    isWhiteSpace (if c = backslash then ' ' else c) = true := by
  by_cases hb : c = backslash
  · rw [if_pos hb]
    decide
  · rw [if_neg hb]
    unfold isSeparator at h
    rw [Bool.or_eq_true] at h
    rcases h with h | h
    · exact h
    · exact absurd (beq_iff_eq.mp h) hb

theorem replace_of_not_sep (c : Char) (h : isSeparator c = false) :
    (if c = backslash then ' ' else c) = c ∧ isWhiteSpace c = false := by
  unfold isSeparator at h
  rw [Bool.or_eq_false_iff] at h
  have hb : c ≠ backslash := fun hh => by
    have := h.2
    rw [hh] at this
    simp at this
  exact ⟨if_neg hb, h.1⟩

theorem collapseFrom_cons_sep_true (c : Char) (cs : Str) (h : isSeparator c = true) :
    collapseFrom true (replaceBackslashes (c :: cs)) =
      collapseFrom true (replaceBackslashes cs) := by
  show collapseFrom true ((if c = backslash then ' ' else c) :: replaceBackslashes cs) = _
  rw [collapseFrom, if_pos (isWhiteSpace_replace_of_sep c h), if_pos rfl]

theorem collapseFrom_cons_sep_false (c : Char) (cs : Str) (h : isSeparator c = true) :
    collapseFrom false (replaceBackslashes (c :: cs)) =
      ' ' :: collapseFrom true (replaceBackslashes cs) := by
  show collapseFrom false ((if c = backslash then ' ' else c) :: replaceBackslashes cs) = _
  rw [collapseFrom, if_pos (isWhiteSpace_replace_of_sep c h), if_neg (by simp)]

theorem collapseFrom_cons_not_sep (b : Bool) (c : Char) (cs : Str)
    (h : isSeparator c = false) :
    collapseFrom b (replaceBackslashes (c :: cs)) =
      c :: collapseFrom false (replaceBackslashes cs) := by
  show collapseFrom b ((if c = backslash then ' ' else c) :: replaceBackslashes cs) = _
  rw [(replace_of_not_sep c h).1, collapseFrom, if_neg (by rw [(replace_of_not_sep c h).2]; simp)]

theorem words_cons_sep (c : Char) (cs : Str) (h : isSeparator c = true) :
    words (c :: cs) = words cs := by
  cases cs with
  | nil => simp [words, h]
  | cons d ds => rw [words, if_pos h]

theorem words_ne_nil (c : Char) (cs : Str) (h : isSeparator c = false) :
    words (c :: cs) ≠ [] := by
  cases cs with
  | nil => simp [words, h]
  | cons d ds =>
    rw [words, if_neg (by rw [h]; simp)]
    split_ifs
    · simp
    · split <;> simp

theorem join_cons_cons (sep c : Char) (w : Str) (ws : List Str) :
    join sep ((c :: w) :: ws) = c :: join sep (w :: ws) := by
  cases ws with
  | nil => rfl
  | cons q qs => rfl

/-- After a run of white space has been entered, the collapse of a text with its
backslashes replaced is the words of the text joined by single spaces, followed by at
most white space. -/
theorem collapseFrom_words (raw : Str) :
    ∃ r, Blank r ∧
      collapseFrom true (replaceBackslashes raw) = join ' ' (words raw) ++ r := by
  induction raw with
  | nil => exact ⟨[], fun _ h => absurd h (List.not_mem_nil _), rfl⟩
  | cons c cs ih =>
    obtain ⟨r, hr, ih⟩ := ih
    cases hc : isSeparator c with
    | true =>
      rw [collapseFrom_cons_sep_true c cs hc, words_cons_sep c cs hc]
      exact ⟨r, hr, ih⟩
    | false =>
      rw [collapseFrom_cons_not_sep true c cs hc]
      cases cs with
      | nil => exact ⟨[], fun _ h => absurd h (List.not_mem_nil _), by simp [words, hc,
          replaceBackslashes, collapseFrom, join]⟩
      | cons d ds =>
        cases hd : isSeparator d with
        | true =>
          rw [collapseFrom_cons_sep_false d ds hd]
          rw [collapseFrom_cons_sep_true d ds hd] at ih
          have hw : words (c :: d :: ds) = [c] :: words (d :: ds) := by
            rw [words, if_neg (by rw [hc]; simp), if_pos hd]
          rw [hw, ih]
          cases hws : words (d :: ds) with
          | nil =>
            refine ⟨' ' :: r, ?_, by simp [join]⟩
            intro x hx
            rcases List.mem_cons.mp hx with hx | hx
            · rw [hx]; decide
            · exact hr x hx
          | cons w ws => exact ⟨r, hr, by simp [join]⟩
        | false =>
          rw [collapseFrom_cons_not_sep false d ds hd]
          rw [collapseFrom_cons_not_sep true d ds hd] at ih
          cases hws : words (d :: ds) with
          | nil => exact absurd hws (words_ne_nil d ds hd)
          | cons w ws =>
            have hw : words (c :: d :: ds) = (c :: w) :: ws := by
              rw [words, if_neg (by rw [hc]; simp), if_neg (by rw [hd]; simp), hws]
            rw [hw, join_cons_cons, ih, hws]
            exact ⟨r, hr, rfl⟩

theorem words_spec (raw : Str) :
    ∀ w ∈ words raw, w ≠ [] ∧ ∀ c ∈ w, isSeparator c = false := by
  induction raw with
  | nil => intro w hw; simp [words] at hw
  | cons c cs ih =>
    cases hc : isSeparator c with
    | true =>
      rw [words_cons_sep c cs hc]
      exact ih
    | false =>
      cases cs with
      | nil =>
        intro w hw
        simp only [words, hc, Bool.false_eq_true, if_false, List.mem_singleton] at hw
        rw [hw]
        refine ⟨by simp, ?_⟩
        intro x hx
        rw [List.mem_singleton] at hx
        rw [hx]
        exact hc
      | cons d ds =>
        cases hd : isSeparator d with
        | true =>
          have hw : words (c :: d :: ds) = [c] :: words (d :: ds) := by
            rw [words, if_neg (by rw [hc]; simp), if_pos hd]
          rw [hw]
          intro w hmem
          rcases List.mem_cons.mp hmem with h | h
          · rw [h]
            refine ⟨by simp, ?_⟩
            intro x hx
            rw [List.mem_singleton] at hx
            rw [hx]
            exact hc
          · exact ih w h
        | false =>
          cases hws : words (d :: ds) with
          | nil => exact absurd hws (words_ne_nil d ds hd)
          | cons w ws =>
            have hw : words (c :: d :: ds) = (c :: w) :: ws := by
              rw [words, if_neg (by rw [hc]; simp), if_neg (by rw [hd]; simp), hws]
            rw [hw]
            rw [hws] at ih
            intro v hmem
            rcases List.mem_cons.mp hmem with h | h
            · rw [h]
              refine ⟨by simp, ?_⟩
              intro x hx
              rcases List.mem_cons.mp hx with hx | hx
              · rw [hx]
                exact hc
              · exact (ih w (List.mem_cons_self _ _)).2 x hx
            · exact ih v (List.mem_cons_of_mem _ h)

theorem not_isWhiteSpace_of_not_sep (c : Char) (h : isSeparator c = false) :
    isWhiteSpace c = false := (replace_of_not_sep c h).2

theorem join_ne_nil (ws : List Str) (hne : ws ≠ []) (h : ∀ w ∈ ws, w ≠ []) :
    join ' ' ws ≠ [] := by
  cases ws with
  | nil => exact absurd rfl hne
  | cons w rest =>
    cases hw : w with
    | nil => exact absurd hw (h w (List.mem_cons_self _ _))
    | cons c cs =>
      rw [join_cons_cons]
      simp

theorem head?_join (ws : List Str) (h : ∀ w ∈ ws, w ≠ [] ∧ ∀ c ∈ w, isWhiteSpace c = false) :
    ∀ c ∈ (join ' ' ws).head?, isWhiteSpace c = false := by
  cases ws with
  | nil => intro c hc; simp [join] at hc
  | cons w rest =>
    cases hw : w with
    | nil => exact absurd hw (h w (List.mem_cons_self _ _)).1
    | cons x xs =>
      rw [join_cons_cons]
      intro c hc
      simp only [List.head?_cons, Option.mem_def, Option.some.injEq] at hc
      rw [← hc]
      exact (h w (List.mem_cons_self _ _)).2 x (by rw [hw]; exact List.mem_cons_self _ _)

theorem getLast?_join (ws : List Str) (h : ∀ w ∈ ws, w ≠ [] ∧ ∀ c ∈ w, isWhiteSpace c = false) :
    ∀ c ∈ (join ' ' ws).getLast?, isWhiteSpace c = false := by
  induction ws with
  | nil => intro c hc; simp [join] at hc
  | cons w rest ih =>
    cases rest with
    | nil =>
      intro c hc
      rw [join] at hc
      exact (h w (List.mem_cons_self _ _)).2 c (List.mem_of_mem_getLast? hc)
    | cons q qs =>
      have hrest : ∀ v ∈ q :: qs, v ≠ [] ∧ ∀ c ∈ v, isWhiteSpace c = false :=
        fun v hv => h v (List.mem_cons_of_mem _ hv)
      have hne : join ' ' (q :: qs) ≠ [] :=
        join_ne_nil (q :: qs) (by simp) (fun v hv => (hrest v hv).1)
      intro c hc
      rw [join, List.getLast?_append_of_ne_nil _ (by simp)] at hc
      cases hj : join ' ' (q :: qs) with
      | nil => exact absurd hj hne
      | cons x xs =>
        rw [hj, List.getLast?_cons_cons] at hc
        rw [hj] at ih
        exact ih hrest c hc

/-- The clean-up gives the words of the text, separated by single spaces. -/
theorem normalize_eq_join_words (raw : Str) : normalize raw = join ' ' (words raw) := by
  have hwords : ∀ w ∈ words raw, w ≠ [] ∧ ∀ c ∈ w, isWhiteSpace c = false :=
    fun w hw => ⟨(words_spec raw w hw).1,
      fun c hc => not_isWhiteSpace_of_not_sep c ((words_spec raw w hw).2 c hc)⟩
  have key : ∃ l r, Blank l ∧ Blank r ∧
      collapseWhiteSpace (replaceBackslashes raw) = l ++ join ' ' (words raw) ++ r := by
    unfold collapseWhiteSpace
    cases raw with
    | nil => exact ⟨[], [], by decide, by decide, rfl⟩
    | cons c cs =>
      cases hc : isSeparator c with
      | true =>
        obtain ⟨r, hr, h⟩ := collapseFrom_words cs
        rw [collapseFrom_cons_sep_false c cs hc, words_cons_sep c cs hc, h]
        exact ⟨[' '], r, by decide, hr, rfl⟩
      | false =>
        obtain ⟨r, hr, h⟩ := collapseFrom_words (c :: cs)
        rw [collapseFrom_cons_not_sep true c cs hc] at h
        rw [collapseFrom_cons_not_sep false c cs hc, h]
        exact ⟨[], r, by decide, hr, rfl⟩
  obtain ⟨l, r, hl, hr, h⟩ := key
  unfold normalize
  rw [h]
  by_cases hne : words raw = []
  · rw [hne]
    apply trim_eq_nil_of_blank
    intro c hc
    simp only [join, List.append_nil, List.mem_append] at hc
    rcases hc with hc | hc
    · exact hl c hc
    · exact hr c hc
  · exact trim_padded l _ r hl hr (join_ne_nil _ hne (fun w hw => (hwords w hw).1))
      (head?_join _ hwords) (getLast?_join _ hwords)

/-! ## Unfolding the extractor -/

theorem extractTextFromPDF_of_pages (fuel : ℕ) (pageRange : Str) (file : PDFFile)
    (pdf : PDFDocument) (pages : List JSNum) (hload : file.load = .ok pdf)
    (hpages : getPagesToProcess fuel pageRange pdf.numPages = some pages)
    (hne : pages ≠ []) :
    extractTextFromPDF fuel pageRange file =
      match readPages pdf pages [] [] with
      | (.ok fullText, requested) => some (.ok (normalize fullText), requested)
      | (.error e, requested) => some (.error e, requested) := by
  unfold extractTextFromPDF
  rw [hload]
  simp only
  rw [hpages]
  simp only
  rw [if_neg (fun h => hne (List.length_eq_zero.mp h))]

theorem extractTextFromPDF_of_no_pages (fuel : ℕ) (pageRange : Str) (file : PDFFile)
    (pdf : PDFDocument) (hload : file.load = .ok pdf)
    (hpages : getPagesToProcess fuel pageRange pdf.numPages = some []) :
    extractTextFromPDF fuel pageRange file = some (.error .emptySelection, []) := by
  unfold extractTextFromPDF
  rw [hload]
  simp only
  rw [hpages]
  rfl

theorem samplePdf_pageText_one : samplePdf.pageText (.ofNat 1) = .ok ["A".toList, "B".toList] := by
  simp [samplePdf]

theorem samplePdf_pageText_two : samplePdf.pageText (.ofNat 2) = .ok ["C".toList] := by
  have h : JSNum.ofNat 2 ≠ JSNum.ofNat 1 := fun hh => absurd (ofNat_injective hh) (by decide)
  simp [samplePdf, h]

theorem samplePdf_items (p : JSNum) (hp : p ∈ [JSNum.ofNat 1, JSNum.ofNat 2]) :
    samplePdf.pageText p = .ok (sampleItems p) := by
  have h : JSNum.ofNat 2 ≠ JSNum.ofNat 1 := fun hh => absurd (ofNat_injective hh) (by decide)
  simp only [List.mem_cons, List.mem_singleton, List.not_mem_nil, or_false] at hp
  rcases hp with rfl | rfl
  · rw [samplePdf_pageText_one]
    simp [sampleItems]
  · rw [samplePdf_pageText_two]
    simp [sampleItems, h]

theorem samplePdf_pages : getPagesToProcess 0 [] samplePdf.numPages =
    some [JSNum.ofNat 1, JSNum.ofNat 2] := rfl

/-! ## A page that is not delivered -/

theorem readPages_of_failure (pdf : PDFDocument) (items : JSNum → List Str)
    (pre post : List JSNum) (p : JSNum) (m : Str)
    (hpre : ∀ q ∈ pre, pdf.pageText q = .ok (items q)) (hp : pdf.pageText p = .error m)
    (fullText : Str) (requested : List JSNum) :
    readPages pdf (pre ++ p :: post) fullText requested =
      (.error (.external m), requested ++ pre ++ [p]) := by
  induction pre generalizing fullText requested with
  | nil =>
    rw [List.nil_append, readPages, hp]
    simp
  | cons q qs ih =>
    rw [List.cons_append, readPages, hpre q (List.mem_cons_self _ _)]
    simp only
    rw [ih (fun x hx => hpre x (List.mem_cons_of_mem _ hx))]
    simp [List.append_assoc]

theorem samplePdf_rejects_fraction :
    samplePdf.pageText (.fin (3 / 2)) = .error "Invalid page request.".toList := by
  have h1 : JSNum.fin (3 / 2) ≠ JSNum.ofNat 1 := by
    intro h
    have : (3 / 2 : ℚ) = ((1 : ℕ) : ℚ) := JSNum.fin.inj h
    norm_num at this
  have h2 : JSNum.fin (3 / 2) ≠ JSNum.ofNat 2 := by
    intro h
    have : (3 / 2 : ℚ) = ((2 : ℕ) : ℚ) := JSNum.fin.inj h
    norm_num at this
  simp [samplePdf, h1, h2]

/-! ## The removal of the fence markers, case by case -/

theorem removeFences_nil : removeFences [] = [] := by
  simp [removeFences, removeFencesFrom]

theorem removeFences_cons (c : Char) (cs : Str) (h : ¬ fence <+: c :: cs) :
    removeFences (c :: cs) = c :: removeFences cs := by
  unfold removeFences
  by_cases hc : c = backtick
  · subst hc
    exact removeFencesFrom_backtick cs h
  · exact removeFencesFrom_cons_of_ne c cs hc

/-- The four cases of the removal determine it: a function that obeys them is
`removeFences`. -/
theorem removeFences_unique (f : Str → Str) (hnil : f [] = [])
    (hhtml : ∀ rest, f (fenceHtml ++ rest) = f rest)
    (hfence : ∀ rest, "html".toList.isPrefixOf rest = false → f (fence ++ rest) = f rest)
    (hcons : ∀ c cs, ¬ fence <+: c :: cs → f (c :: cs) = c :: f cs) (n : ℕ) :
    ∀ s : Str, s.length ≤ n → f s = removeFences s := by
  induction n with
  | zero =>
    intro s hs
    have : s = [] := List.length_eq_zero.mp (Nat.le_zero.mp hs)
    rw [this, hnil, removeFences_nil]
  | succ n ih =>
    intro s hs
    cases s with
    | nil => rw [hnil, removeFences_nil]
    | cons c cs =>
      by_cases hf : fence <+: c :: cs
      · by_cases hh : fenceHtml <+: c :: cs
        · obtain ⟨rest, hr⟩ := hh
          have hlen : rest.length ≤ n := by
            have := congrArg List.length hr
            rw [List.length_append, fenceHtml_eq] at this
            simp only [List.length_cons] at this hs
            omega
          rw [← hr, hhtml, ih rest hlen]
          unfold removeFences
          rw [removeFencesFrom_html]
        · obtain ⟨rest, hr⟩ := hf
          have hlen : rest.length ≤ n := by
            have := congrArg List.length hr
            rw [List.length_append, fence_eq] at this
            simp only [List.length_cons] at this hs
            omega
          have hno : "html".toList.isPrefixOf rest = false := by
            cases hp : "html".toList.isPrefixOf rest with
            | false => rfl
            | true =>
              exfalso
              apply hh
              obtain ⟨t, ht⟩ := List.isPrefixOf_iff_prefix.mp hp
              refine ⟨t, ?_⟩
              rw [← hr, ← ht, fenceHtml_eq, fence_eq]
              rfl
          rw [← hr, hfence rest hno, ih rest hlen]
          unfold removeFences
          rw [removeFencesFrom_fence rest hno]
      · have hlen : cs.length ≤ n := by
          simp only [List.length_cons] at hs
          omega
        rw [hcons c cs hf, removeFences_cons c cs hf, ih cs hlen]

/-! ## A successful generation -/

theorem generateNotes_of_ok (generateContent : List ℕ → Except Str Str) (fuel : ℕ)
    (st : AppState) (file : PDFFile) (rawText : Str) (requested : List JSNum) (r : Str)
    (hfile : st.pdfFile = some file)
    (hext : extractTextFromPDF fuel st.pageRange file = some (.ok rawText, requested))
    (hresp : generateContent (buildPrompt st.pageRange rawText) = .ok r) :
    generateNotes (some generateContent) fuel st =
      some { st with content := trim (removeFences r), aiLoading := false, aiStatus := [] } := by
  unfold generateNotes
  rw [hfile]
  simp only
  rw [hext]
  simp only [requestNotes]
  rw [hresp]
  rfl

theorem sampleReadyState_extract :
    extractTextFromPDF 0 sampleReadyState.pageRange ⟨.ok samplePdf⟩ =
      some (.ok "A B C".toList, [.ofNat 1, .ofNat 2]) := by
  show extractTextFromPDF 0 [] ⟨.ok samplePdf⟩ = _
  rw [extractTextFromPDF_of_pages 0 [] ⟨.ok samplePdf⟩ samplePdf _ rfl samplePdf_pages
      (by simp),
    readPages_of_ok samplePdf sampleItems _ samplePdf_items]
  have h : JSNum.ofNat 2 ≠ JSNum.ofNat 1 :=
    fun hh => absurd (ofNat_injective hh) (by decide)
  have hraw : ([] ++ [JSNum.ofNat 1, JSNum.ofNat 2].flatMap
      fun p => pageRun (sampleItems p)) = " A B C".toList := by
    simp [List.flatMap_cons, sampleItems, h, pageRun, join]
  have hn : normalize ([] ++ [JSNum.ofNat 1, JSNum.ofNat 2].flatMap
      fun p => pageRun (sampleItems p)) = "A B C".toList := by
    rw [hraw]
    decide
  simp only [hn]
  rfl

/-! ## The prompt -/

theorem toUTF16_append (a b : Str) : toUTF16 (a ++ b) = toUTF16 a ++ toUTF16 b := by
  simp [toUTF16, List.flatMap_append]

/-- The prompt carries the scope label, and of the extracted text at most 30000 code
units. -/
theorem buildPrompt_spec (pageRange rawText : Str) :
    toUTF16 (scopeLabel pageRange) <:+: buildPrompt pageRange rawText ∧
    (buildPrompt pageRange rawText).length ≤
      (toUTF16 (promptHead pageRange)).length + 30000 + (toUTF16 promptTail).length ∧
    ((toUTF16 rawText).length ≤ 30000 →
      buildPrompt pageRange rawText =
        toUTF16 (promptHead pageRange) ++ toUTF16 rawText ++ toUTF16 promptTail) := by
  refine ⟨?_, ?_, ?_⟩
  · unfold buildPrompt promptHead
    rw [toUTF16_append, toUTF16_append]
    exact ⟨toUTF16 promptIntro,
      toUTF16 promptBody ++ (toUTF16 rawText).take 30000 ++ toUTF16 promptTail,
      by simp only [List.append_assoc]⟩
  · unfold buildPrompt
    simp only [List.length_append, List.length_take]
    omega
  · intro h
    unfold buildPrompt
    rw [List.take_of_length_le h]

/-! ## The claims of the specification -/

/-- C1, counterexample.  With the expression `1.5` and ten pages the parser returns the
one-element list `[1.5]`: an element of the returned list need not be an integer. -/
theorem getPagesToProcess_fraction :
    getPagesToProcess 0 "1.5".toList 10 = some [.fin (3 / 2)] ∧
      ¬ ∃ n : ℕ, JSNum.fin (3 / 2) = .ofNat n := by
  refine ⟨eval_one_point_five 0 10 (by norm_num), ?_⟩
  rintro ⟨n, hn⟩
  have h : (3 / 2 : ℚ) = n := JSNum.fin.inj hn
  have h2 : (3 : ℚ) = 2 * n := by linarith
  have h3 : (3 : ℕ) = 2 * n := by exact_mod_cast h2
  omega

/-- C1, amended.  For every range expression and every page count, `getPagesToProcess`
returns whenever the end token of every range parses below `2 ^ 53`; and whenever it
returns, the list is strictly ascending (so it has no duplicates) and every element is a
finite number `n` with `0 < n ≤ total`, an integer with `1 ≤ n ≤ total` when no token
that starts a range or stands alone parses to a fraction. -/
theorem getPagesToProcess_pageSet (pageRange : Str) (total : ℕ) :
    (BoundedEnds pageRange → ∃ l, Returns pageRange total l) ∧
    ∀ l, Returns pageRange total l →
      l.Pairwise (fun a b => a.lt b = true) ∧
      (∀ x ∈ l, ∃ q : ℚ, x = .fin q ∧ 0 < q ∧ q ≤ total) ∧
      (WholeStarts pageRange → ∀ x ∈ l, ∃ n : ℕ, x = .ofNat n ∧ 1 ≤ n ∧ n ≤ total) :=
  ⟨returns_of_boundedEnds pageRange total,
    fun l ⟨fuel, h⟩ => pageSet_of_getPagesToProcess fuel pageRange total l h⟩

theorem boundedEnds_one_to_five_and_eight : BoundedEnds "1-5, 8".toList := by
  have hs : split ',' "1-5, 8".toList = ["1-5".toList, " 8".toList] := by decide
  intro part hp
  rw [hs] at hp
  simp only [List.mem_cons, List.mem_singleton, List.not_mem_nil, or_false] at hp
  rcases hp with rfl | rfl
  · have h1 : split '-' "1-5".toList = ["1".toList, "5".toList] := by decide
    rw [h1]
    show (Number "5".toList).BelowTwoPow53
    rw [Number_of_digits "5".toList 5 (by decide) (by decide) (by norm_num)]
    show ((5 : ℕ) : ℚ) < 2 ^ 53
    norm_num
  · have h1 : split '-' " 8".toList = [" 8".toList] := by decide
    rw [h1]
    exact trivial

/-- C1, witness: the expression `1-5, 8` with ten pages. -/
theorem getPagesToProcess_pageSet_witness :
    (BoundedEnds "1-5, 8".toList ∧
      Returns "1-5, 8".toList 10 ([1, 2, 3, 4, 5, 8].map .ofNat)) ∧
    (∃ l, Returns "1-5, 8".toList 10 l) ∧
    ([1, 2, 3, 4, 5, 8].map JSNum.ofNat).Pairwise (fun a b => a.lt b = true) ∧
    (∀ x ∈ [1, 2, 3, 4, 5, 8].map JSNum.ofNat, ∃ q : ℚ, x = .fin q ∧ 0 < q ∧ q ≤ (10 : ℕ)) ∧
    (WholeStarts "1-5, 8".toList →
      ∀ x ∈ [1, 2, 3, 4, 5, 8].map JSNum.ofNat, ∃ n : ℕ, x = .ofNat n ∧ 1 ≤ n ∧ n ≤ 10) :=
  ⟨⟨boundedEnds_one_to_five_and_eight, 5, eval_one_to_five_and_eight⟩,
    (getPagesToProcess_pageSet "1-5, 8".toList 10).1 boundedEnds_one_to_five_and_eight,
    (getPagesToProcess_pageSet "1-5, 8".toList 10).2 _ ⟨5, eval_one_to_five_and_eight⟩⟩

theorem eval_two_pow_single :
    getPagesToProcess 0 "9007199254740992".toList 10 = some [] := by
  have hlit : IsIntLiteral "9007199254740992".toList (2 ^ 53) :=
    ⟨[], "9007199254740992".toList, [], by decide, fun _ hc => absurd hc (List.not_mem_nil _),
      fun _ hc => absurd hc (List.not_mem_nil _), by decide, by decide⟩
  have hnum : Number "9007199254740992".toList = .fin (2 ^ 53) := by
    rw [Number_of_intLiteral _ _ hlit, roundDouble_natCast _ (le_refl _)]
    norm_num
  have hadd : AddsNoPage 10 "9007199254740992".toList := by
    refine ⟨by decide, Or.inr ⟨by decide, Or.inr ?_⟩⟩
    rw [hnum]
    simp only [JSNum.lt, JSNum.ofNat, decide_eq_true_eq]
    norm_num
  have h := getPagesToProcess_of_all_addNoPage 0 10 ["9007199254740992".toList] (by simp)
    (fun p hp => by rw [List.mem_singleton] at hp; rw [hp]; exact hadd) (by decide)
  exact h

/-- C2, the code at the failing input.  The expression
`9007199254740992-9007199254740992` is two integer literals joined by one hyphen, for
which the claim promises the empty list when the document has ten pages.  The parser
never returns on it: at `2 ^ 53` the increment `i++` leaves `i` unchanged, so the loop
test `i <= end` holds for ever.  On the same literal as a single token it returns the
empty list. -/
theorem getPagesToProcess_two_pow_range :
    (PagePart.range (2 ^ 53) (2 ^ 53)).Spells "9007199254740992-9007199254740992".toList ∧
    (¬ ∃ l, Returns "9007199254740992-9007199254740992".toList 10 l) ∧
    getPagesToProcess 0 "9007199254740992".toList 10 = some [] := by
  refine ⟨spells_two_pow, ?_, eval_two_pow_single⟩
  rintro ⟨l, fuel, h⟩
  rw [eval_two_pow fuel] at h
  exact absurd h (by simp)

/-- Below `2 ^ 53` the parser does what is asked of it on integer literals.  For every
page count and every range expression whose comma-separated parts are each a single
integer literal or two integer literals joined by one hyphen (white space around the
literals allowed), all literals being below `2 ^ 53`, `getPagesToProcess` returns
exactly the ascending, duplicate-free list of the integers `n ≤ total` such that some
part is the single non-zero number `n` or is a range `a-b` with `a` and `b` non-zero and
`a ≤ n ≤ b`.  In particular `1-5, 8` with ten pages gives `[1, 2, 3, 4, 5, 8]`. -/
theorem getPagesToProcess_intLiterals (total : ℕ) (specs : List PagePart) (parts : List Str)
    (hne : specs ≠ []) (hsp : List.Forall₂ PagePart.Spells specs parts)
    (hsafe : ∀ p ∈ specs, p.Safe) :
    (∃ ns : List ℕ, Returns (join ',' parts) total (ns.map .ofNat) ∧ ns.Sorted (· < ·) ∧
      ∀ n, n ∈ ns ↔ n ≤ total ∧ ∃ p ∈ specs, p.Selects n) ∧
    Returns "1-5, 8".toList 10 ([1, 2, 3, 4, 5, 8].map .ofNat) := by
  obtain ⟨fuel, hfuel⟩ := exists_fuel specs
  refine ⟨⟨(specs.foldl (PagePart.addTo total) []).insertionSort (· ≤ ·),
    ⟨fuel, getPagesToProcess_of_spells fuel total specs parts hne hsp hsafe hfuel⟩,
    sorted_lt_insertionSort _ (nodup_foldl_addTo total specs [] List.nodup_nil), ?_⟩,
    ⟨5, eval_one_to_five_and_eight⟩⟩
  intro n
  rw [(List.perm_insertionSort _ _).mem_iff, mem_foldl_addTo]
  constructor
  · rintro (h | h)
    · exact absurd h (List.not_mem_nil _)
    · exact h
  · exact Or.inr

/-- The parts `1-5` and ` 8`, that is the expression `1-5, 8`, are within the reach of
`getPagesToProcess_intLiterals`. -/
theorem getPagesToProcess_intLiterals_witness :
    ([PagePart.range 1 5, PagePart.single 8] ≠ [] ∧
      List.Forall₂ PagePart.Spells [PagePart.range 1 5, PagePart.single 8]
        ["1-5".toList, " 8".toList] ∧
      ∀ p ∈ [PagePart.range 1 5, PagePart.single 8], p.Safe) ∧
    ∃ ns : List ℕ, Returns (join ',' ["1-5".toList, " 8".toList]) 10 (ns.map .ofNat) ∧
      ns.Sorted (· < ·) ∧
      ∀ n, n ∈ ns ↔ n ≤ 10 ∧ ∃ p ∈ [PagePart.range 1 5, PagePart.single 8], p.Selects n :=
  have hne : [PagePart.range 1 5, PagePart.single 8] ≠ [] := by simp
  have hsp : List.Forall₂ PagePart.Spells [PagePart.range 1 5, PagePart.single 8]
      ["1-5".toList, " 8".toList] :=
    List.Forall₂.cons spells_one_to_five (List.Forall₂.cons spells_eight List.Forall₂.nil)
  have hsafe : ∀ p ∈ [PagePart.range 1 5, PagePart.single 8], p.Safe := by
    intro p hp
    simp only [List.mem_cons, List.mem_singleton, List.not_mem_nil, or_false] at hp
    rcases hp with rfl | rfl
    · exact ⟨by norm_num, by norm_num⟩
    · show (8 : ℕ) < 2 ^ 53
      norm_num
  ⟨⟨hne, hsp, hsafe⟩, (getPagesToProcess_intLiterals 10 _ _ hne hsp hsafe).1⟩

/-- C3.  For every page count `total` and every range expression that is empty or made
only of white space, `getPagesToProcess` returns exactly the list `[1, 2, ..., total]`
in that order (the empty list when `total` is `0`). -/
theorem getPagesToProcess_blank (fuel : ℕ) (pageRange : Str) (total : ℕ)
    (h : ∀ c ∈ pageRange, isWhiteSpace c = true) :
    getPagesToProcess fuel pageRange total = some ((List.range' 1 total).map .ofNat) := by
  rw [getPagesToProcess_of_blank fuel pageRange total h, allPages_eq]

/-- C3, witness: two spaces and three pages. -/
theorem getPagesToProcess_blank_witness :
    (∀ c ∈ "  ".toList, isWhiteSpace c = true) ∧
      getPagesToProcess 0 "  ".toList 3 = some ((List.range' 1 3).map .ofNat) :=
  ⟨by decide, getPagesToProcess_blank 0 "  ".toList 3 (by decide)⟩

/-- C4.  For every page count, a comma-separated part adds no page and raises no error
when it is a range whose start or end token is `0` or not numeric (as `0-5`), a range
whose start exceeds its end (as `3-1`), or a single token that is `0`, not numeric or
greater than the page count (as `12` with ten pages): a non-blank expression made only
of such parts gives the empty list, and appending a comma and such a part to a non-blank
expression leaves the outcome of `getPagesToProcess` unchanged. -/
theorem getPagesToProcess_addsNoPage (fuel total : ℕ) (parts : List Str) (e part : Str)
    (hne : parts ≠ []) (hparts : ∀ p ∈ parts, AddsNoPage total p)
    (hnb : ¬ Blank (join ',' parts)) (he : ¬ Blank e) (hpart : AddsNoPage total part) :
    getPagesToProcess fuel (join ',' parts) total = some [] ∧
    getPagesToProcess fuel (e ++ ',' :: part) total = getPagesToProcess fuel e total ∧
    AddsNoPage 10 "0-5".toList ∧ AddsNoPage 10 "3-1".toList ∧ AddsNoPage 10 "12".toList :=
  ⟨getPagesToProcess_of_all_addNoPage fuel total parts hne hparts hnb,
    getPagesToProcess_append_addsNoPage fuel total e part he hpart,
    addsNoPage_zero_to_five, addsNoPage_three_to_one, addsNoPage_twelve⟩

/-- C4, witness: the parts `0-5` and `3-1`, and `12` appended to the expression `2`, with
ten pages. -/
theorem getPagesToProcess_addsNoPage_witness :
    (["0-5".toList, "3-1".toList] ≠ [] ∧
      (∀ p ∈ ["0-5".toList, "3-1".toList], AddsNoPage 10 p) ∧
      ¬ Blank (join ',' ["0-5".toList, "3-1".toList]) ∧ ¬ Blank "2".toList ∧
      AddsNoPage 10 "12".toList) ∧
    getPagesToProcess 0 (join ',' ["0-5".toList, "3-1".toList]) 10 = some [] ∧
    getPagesToProcess 0 ("2".toList ++ ',' :: "12".toList) 10 =
      getPagesToProcess 0 "2".toList 10 :=
  have hne : ["0-5".toList, "3-1".toList] ≠ [] := by simp
  have hparts : ∀ p ∈ ["0-5".toList, "3-1".toList], AddsNoPage 10 p := by
    intro p hp
    simp only [List.mem_cons, List.mem_singleton, List.not_mem_nil, or_false] at hp
    rcases hp with rfl | rfl
    · exact addsNoPage_zero_to_five
    · exact addsNoPage_three_to_one
  have hnb : ¬ Blank (join ',' ["0-5".toList, "3-1".toList]) := by decide
  have he : ¬ Blank "2".toList := by decide
  have h := getPagesToProcess_addsNoPage 0 10 _ "2".toList "12".toList hne hparts hnb he
    addsNoPage_twelve
  ⟨⟨hne, hparts, hnb, he, addsNoPage_twelve⟩, h.1, h.2.1⟩

/-- C5, counterexample.  On the two-page document `samplePdf` the expression `1.5` gives
the page list `[1.5]`, which is not empty, yet `extractTextFromPDF` returns no text: the
document rejects the request for page `1.5` and the extraction fails with that error. -/
theorem extractTextFromPDF_rejected_page :
    getPagesToProcess 0 "1.5".toList samplePdf.numPages = some [.fin (3 / 2)] ∧
    extractTextFromPDF 0 "1.5".toList ⟨.ok samplePdf⟩ =
      some (.error (.external "Invalid page request.".toList), [.fin (3 / 2)]) := by
  have hp : getPagesToProcess 0 "1.5".toList samplePdf.numPages = some [.fin (3 / 2)] :=
    eval_one_point_five 0 2 (le_refl _)
  refine ⟨hp, ?_⟩
  rw [extractTextFromPDF_of_pages 0 "1.5".toList ⟨.ok samplePdf⟩ samplePdf _ rfl hp (by simp)]
  have h := readPages_of_failure samplePdf sampleItems [] [] (.fin (3 / 2))
    "Invalid page request.".toList (fun _ hq => absurd hq (List.not_mem_nil _))
    samplePdf_rejects_fraction [] []
  rw [List.nil_append] at h
  rw [h]
  rfl

/-- C5, amended.  For a loaded document and a range expression whose page set is not
empty: when every selected page delivers its text, `extractTextFromPDF` requests the
selected pages in ascending order and returns `normalize raw`, where `raw` is the
concatenation over these pages of one space followed by the page's text items joined by
single spaces; when a selected page is not delivered, it fails with the error of the
first such page and returns no text.  The clean-up `normalize` treats a backslash as a
space, collapses every run of white space to one space and trims both ends, so that its
result is the words of `raw` separated by single spaces: it has no backslash, no two
adjacent white-space characters and no white space at either end.  Pages with items
`A`, `B` and `C` give `A B C`. -/
theorem extractTextFromPDF_normalized (fuel : ℕ) (pageRange : Str) (file : PDFFile)
    (pdf : PDFDocument) (pages : List JSNum) (hload : file.load = .ok pdf)
    (hpages : getPagesToProcess fuel pageRange pdf.numPages = some pages)
    (hne : pages ≠ []) :
    (∀ items : JSNum → List Str, (∀ p ∈ pages, pdf.pageText p = .ok (items p)) →
      extractTextFromPDF fuel pageRange file =
        some (.ok (normalize (pages.flatMap fun p => ' ' :: join ' ' (items p))), pages)) ∧
    (∀ (items : JSNum → List Str) (pre post : List JSNum) (p : JSNum) (m : Str),
      pages = pre ++ p :: post → (∀ q ∈ pre, pdf.pageText q = .ok (items q)) →
      pdf.pageText p = .error m →
      extractTextFromPDF fuel pageRange file = some (.error (.external m), pre ++ [p])) ∧
    pages.Pairwise (fun a b => a.lt b = true) ∧
    (∀ raw : Str, normalize raw = join ' ' (words raw) ∧
      backslash ∉ normalize raw ∧
      (normalize raw).Chain' (fun a b => ¬ (isWhiteSpace a = true ∧ isWhiteSpace b = true)) ∧
      (∀ c ∈ (normalize raw).head?, isWhiteSpace c = false) ∧
      (∀ c ∈ (normalize raw).getLast?, isWhiteSpace c = false)) ∧
    normalize ("  a".toList ++ backslash :: "b ".toList ++ Char.ofNat 9 :: " c ".toList) =
      "a b c".toList ∧
    extractTextFromPDF 0 [] ⟨.ok samplePdf⟩ =
      some (.ok "A B C".toList, [.ofNat 1, .ofNat 2]) := by
  refine ⟨?_, ?_, (pageSet_of_getPagesToProcess fuel pageRange _ pages hpages).1,
    fun raw => ⟨normalize_eq_join_words raw, normalize_clean raw⟩, by decide,
    sampleReadyState_extract⟩
  · intro items htext
    rw [extractTextFromPDF_of_pages fuel pageRange file pdf pages hload hpages hne,
      readPages_of_ok pdf items pages htext]
    simp [pageRun]
  · intro items pre post p m hsplit hpre hp
    rw [extractTextFromPDF_of_pages fuel pageRange file pdf pages hload hpages hne, hsplit,
      readPages_of_failure pdf items pre post p m hpre hp]
    simp

/-- C5, witness: the two-page document `samplePdf` with an empty range expression. -/
theorem extractTextFromPDF_normalized_witness :
    ((PDFFile.mk (.ok samplePdf)).load = .ok samplePdf ∧
      getPagesToProcess 0 [] samplePdf.numPages = some [JSNum.ofNat 1, JSNum.ofNat 2] ∧
      [JSNum.ofNat 1, JSNum.ofNat 2] ≠ [] ∧
      ∀ p ∈ [JSNum.ofNat 1, JSNum.ofNat 2], samplePdf.pageText p = .ok (sampleItems p)) ∧
    extractTextFromPDF 0 [] ⟨.ok samplePdf⟩ =
      some (.ok (normalize ([JSNum.ofNat 1, JSNum.ofNat 2].flatMap
        fun p => ' ' :: join ' ' (sampleItems p))), [.ofNat 1, .ofNat 2]) :=
  ⟨⟨rfl, samplePdf_pages, by simp, samplePdf_items⟩,
    (extractTextFromPDF_normalized 0 [] ⟨.ok samplePdf⟩ samplePdf _ rfl
      samplePdf_pages (by simp)).1 sampleItems samplePdf_items⟩

/-- C6.  For a successfully loaded document and a range expression on which
`getPagesToProcess` returns, `extractTextFromPDF` fails with the empty-selection error
(message `Seçilen aralıkta sayfa bulunamadı.`) exactly when the returned page list is
empty, and in that case no page has been requested and no text is returned. -/
theorem extractTextFromPDF_emptySelection (fuel : ℕ) (pageRange : Str) (file : PDFFile)
    (pdf : PDFDocument) (pages : List JSNum) (hload : file.load = .ok pdf)
    (hpages : getPagesToProcess fuel pageRange pdf.numPages = some pages) :
    ∃ outcome requested,
      extractTextFromPDF fuel pageRange file = some (outcome, requested) ∧
      (outcome = .error .emptySelection ↔ pages = []) ∧
      (pages = [] → requested = []) ∧
      JSError.emptySelection.message = "Seçilen aralıkta sayfa bulunamadı.".toList := by
  by_cases hp : pages = []
  · rw [hp] at hpages
    exact ⟨.error .emptySelection, [],
      extractTextFromPDF_of_no_pages fuel pageRange file pdf hload hpages,
      ⟨fun _ => hp, fun _ => rfl⟩, fun _ => rfl, rfl⟩
  · rw [extractTextFromPDF_of_pages fuel pageRange file pdf pages hload hpages hp]
    cases hr : readPages pdf pages [] [] with
    | mk outcome requested =>
      cases outcome with
      | ok fullText =>
        refine ⟨.ok (normalize fullText), requested, rfl, ⟨fun h => ?_, fun h => absurd h hp⟩,
          fun h => absurd h hp, rfl⟩
        exact absurd h (by simp)
      | error e =>
        obtain ⟨m, hm⟩ := readPages_error_external pdf pages [] [] e requested hr
        refine ⟨.error e, requested, rfl, ⟨fun h => ?_, fun h => absurd h hp⟩,
          fun h => absurd h hp, rfl⟩
        rw [hm] at h
        exact absurd h (by simp)

/-- C6, witness: the expression `12` on a document of two pages selects no page. -/
theorem extractTextFromPDF_emptySelection_witness :
    ((PDFFile.mk (.ok samplePdf)).load = .ok samplePdf ∧
      getPagesToProcess 0 "12".toList samplePdf.numPages = some []) ∧
    ∃ outcome requested,
      extractTextFromPDF 0 "12".toList ⟨.ok samplePdf⟩ = some (outcome, requested) ∧
      (outcome = .error .emptySelection ↔ ([] : List JSNum) = []) ∧
      (([] : List JSNum) = [] → requested = []) ∧
      JSError.emptySelection.message = "Seçilen aralıkta sayfa bulunamadı.".toList :=
  have hp : getPagesToProcess 0 "12".toList samplePdf.numPages = some [] := by
    have hj : join ',' ["12".toList] = "12".toList := rfl
    have hadd : AddsNoPage samplePdf.numPages "12".toList := by
      refine ⟨by decide, Or.inr ⟨by decide, Or.inr ?_⟩⟩
      rw [Number_of_digits "12".toList 12 (by decide) (by decide) (by norm_num)]
      simp only [JSNum.lt, JSNum.ofNat, samplePdf, decide_eq_true_eq]
      norm_num
    have := getPagesToProcess_of_all_addNoPage 0 samplePdf.numPages ["12".toList] (by simp)
      (fun p hp => by rw [List.mem_singleton] at hp; rw [hp]; exact hadd) (by decide)
    rw [hj] at this
    exact this
  ⟨⟨rfl, hp⟩, extractTextFromPDF_emptySelection 0 "12".toList ⟨.ok samplePdf⟩ samplePdf [] rfl hp⟩

theorem generateNotes_of_error (model : Option (List ℕ → Except Str Str)) (fuel : ℕ)
    (st : AppState) (file : PDFFile) (extracted : Except JSError Str)
    (requested : List JSNum) (e : JSError) (hfile : st.pdfFile = some file)
    (hext : extractTextFromPDF fuel st.pageRange file = some (extracted, requested))
    (hreq : requestNotes model st.pageRange extracted = .error e) :
    generateNotes model fuel st =
      some { st with
        alerts := st.alerts ++ ["Hata: ".toList ++ e.message],
        aiLoading := false, aiStatus := [] } := by
  unfold generateNotes
  rw [hfile]
  simp only
  rw [hext]
  simp only
  rw [hreq]

theorem requestNotes_of_failure (model : Option (List ℕ → Except Str Str)) (pageRange : Str)
    (extracted : Except JSError Str) (e : JSError)
    (hfail : extracted = .error e ∨ ∃ rawText, extracted = .ok rawText ∧
      ((model = none ∧ e = .nullModel) ∨
        ∃ generateContent m, model = some generateContent ∧
          generateContent (buildPrompt pageRange rawText) = .error m ∧ e = .external m)) :
    requestNotes model pageRange extracted = .error e := by
  rcases hfail with h | ⟨rawText, h, h1 | ⟨g, m, hm, hg, he⟩⟩
  · rw [h]
    rfl
  · rw [h, h1.1, h1.2]
    rfl
  · rw [h, hm, he]
    unfold requestNotes
    simp only
    rw [hg]

/-- C7.  Whatever the editor holds, when a file is selected and a failure is raised
inside `generateNotes` (the extraction fails, the page selection is empty, the model is
`null` because no credential was given, or the inference call throws an error with
message `m`), `generateNotes` settles without propagating the error, the document of
the editor is what it was before the call, and exactly one message is shown: `Hata: `
followed by the text of the error (`m` itself for an error of a collaborator). -/
theorem generateNotes_failure (model : Option (List ℕ → Except Str Str)) (fuel : ℕ)
    (st : AppState) (file : PDFFile) (extracted : Except JSError Str)
    (requested : List JSNum) (e : JSError) (hfile : st.pdfFile = some file)
    (hext : extractTextFromPDF fuel st.pageRange file = some (extracted, requested))
    (hfail : extracted = .error e ∨ ∃ rawText, extracted = .ok rawText ∧
      ((model = none ∧ e = .nullModel) ∨
        ∃ generateContent m, model = some generateContent ∧
          generateContent (buildPrompt st.pageRange rawText) = .error m ∧ e = .external m)) :
    ∃ st', generateNotes model fuel st = some st' ∧
      st'.content = st.content ∧
      st'.alerts = st.alerts ++ ["Hata: ".toList ++ e.message] ∧
      st'.aiLoading = false ∧ st'.aiStatus = [] ∧
      ∀ m, (JSError.external m).message = m :=
  ⟨_, generateNotes_of_error model fuel st file extracted requested e hfile hext
      (requestNotes_of_failure model st.pageRange extracted e hfail),
    rfl, rfl, rfl, rfl, fun _ => rfl⟩

theorem sampleState_extract :
    extractTextFromPDF 0 sampleState.pageRange ⟨.ok samplePdf⟩ =
      some (.error .emptySelection, []) := by
  have hj : join ',' ["12".toList] = "12".toList := rfl
  have hadd : AddsNoPage samplePdf.numPages "12".toList := by
    refine ⟨by decide, Or.inr ⟨by decide, Or.inr ?_⟩⟩
    rw [Number_of_digits "12".toList 12 (by decide) (by decide) (by norm_num)]
    simp only [JSNum.lt, JSNum.ofNat, samplePdf, decide_eq_true_eq]
    norm_num
  have hp := getPagesToProcess_of_all_addNoPage 0 samplePdf.numPages ["12".toList] (by simp)
    (fun p hp => by rw [List.mem_singleton] at hp; rw [hp]; exact hadd) (by decide)
  rw [hj] at hp
  exact extractTextFromPDF_of_no_pages 0 "12".toList ⟨.ok samplePdf⟩ samplePdf rfl hp

/-- C7, witness: `sampleState`, whose range `12` selects no page of the two-page
document. -/
theorem generateNotes_failure_witness :
    (sampleState.pdfFile = some ⟨.ok samplePdf⟩ ∧
      extractTextFromPDF 0 sampleState.pageRange ⟨.ok samplePdf⟩ =
        some (.error .emptySelection, [])) ∧
    ∃ st', generateNotes none 0 sampleState = some st' ∧
      st'.content = sampleState.content ∧
      st'.alerts = sampleState.alerts ++ ["Hata: ".toList ++ JSError.emptySelection.message] ∧
      st'.aiLoading = false ∧ st'.aiStatus = [] ∧
      ∀ m, (JSError.external m).message = m :=
  ⟨⟨rfl, sampleState_extract⟩,
    generateNotes_failure none 0 sampleState ⟨.ok samplePdf⟩ (.error .emptySelection) []
      .emptySelection rfl sampleState_extract (Or.inl rfl)⟩

/-- C8, the code at the failing input.  With a page-range field holding one space, the
prompt is labelled `Seçili Sayfalar` (selected pages) although `getPagesToProcess` takes
the all-pages branch and returns every page of the document. -/
theorem scopeLabel_of_space (fuel total : ℕ) :
    scopeLabel " ".toList = "Seçili Sayfalar".toList ∧
      getPagesToProcess fuel " ".toList total = some (allPages total) :=
  ⟨by decide, getPagesToProcess_of_blank fuel " ".toList total (by decide)⟩

/-- C9, counterexample.  When the model answers `a`, a fence marker and `b`, the note that
`generateNotes` loads into the editor is `ab`: the marker inside the text is removed,
whereas removing markers only from the start and the end would keep the answer as it
is. -/
theorem generateNotes_inner_fence :
    (generateNotes (some fun _ => .ok ('a' :: fence ++ ['b'])) 0 sampleReadyState).map
        AppState.content = some ['a', 'b'] ∧
      stripOuterFences ('a' :: fence ++ ['b']) = 'a' :: fence ++ ['b'] := by
  refine ⟨?_, by decide⟩
  rw [generateNotes_of_ok (fun _ => .ok ('a' :: fence ++ ['b'])) 0 sampleReadyState
    ⟨.ok samplePdf⟩ "A B C".toList [.ofNat 1, .ofNat 2] ('a' :: fence ++ ['b']) rfl
    sampleReadyState_extract rfl]
  show some (trim (removeFences ('a' :: fence ++ ['b']))) = some ['a', 'b']
  decide

/-- C9, amended.  When the extraction succeeds and the model answers `r`, `generateNotes`
shows no message and loads into the editor the text `r` with every occurrence of a
fence marker removed, wherever it stands, and then trimmed.  The removal scans `r` from
left to right: at a marker followed by `html` it drops both, at any other marker it
drops the marker, and otherwise it keeps the character and moves on; these cases
determine it.  The note contains no fence marker, it is made of characters of `r` in
their order, and it is `r` without its markers less the white space at both ends. -/
theorem generateNotes_loads_cleaned (generateContent : List ℕ → Except Str Str) (fuel : ℕ)
    (st : AppState) (file : PDFFile) (rawText : Str) (requested : List JSNum) (r : Str)
    (hfile : st.pdfFile = some file)
    (hext : extractTextFromPDF fuel st.pageRange file = some (.ok rawText, requested))
    (hresp : generateContent (buildPrompt st.pageRange rawText) = .ok r) :
    (∃ st', generateNotes (some generateContent) fuel st = some st' ∧
      st'.content = trim (removeFences r) ∧ st'.alerts = st.alerts ∧
      st'.aiLoading = false ∧ st'.aiStatus = []) ∧
    (removeFences [] = [] ∧
      (∀ rest, removeFences (fenceHtml ++ rest) = removeFences rest) ∧
      (∀ rest, "html".toList.isPrefixOf rest = false →
        removeFences (fence ++ rest) = removeFences rest) ∧
      (∀ c cs, ¬ fence <+: c :: cs → removeFences (c :: cs) = c :: removeFences cs)) ∧
    (∀ f : Str → Str, f [] = [] → (∀ rest, f (fenceHtml ++ rest) = f rest) →
      (∀ rest, "html".toList.isPrefixOf rest = false → f (fence ++ rest) = f rest) →
      (∀ c cs, ¬ fence <+: c :: cs → f (c :: cs) = c :: f cs) → ∀ s, f s = removeFences s) ∧
    ¬ fence <:+: trim (removeFences r) ∧
    (trim (removeFences r)).Sublist r ∧
    (∃ l t, Blank l ∧ Blank t ∧ removeFences r = l ++ trim (removeFences r) ++ t) ∧
    (∀ c ∈ (trim (removeFences r)).head?, isWhiteSpace c = false) ∧
    (∀ c ∈ (trim (removeFences r)).getLast?, isWhiteSpace c = false) :=
  ⟨⟨_, generateNotes_of_ok generateContent fuel st file rawText requested r hfile hext hresp,
      rfl, rfl, rfl, rfl⟩,
    ⟨removeFences_nil, fun rest => removeFencesFrom_html rest,
      fun rest h => removeFencesFrom_fence rest h, removeFences_cons⟩,
    fun f h1 h2 h3 h4 s => removeFences_unique f h1 h2 h3 h4 s.length s (le_refl _),
    no_fence_cleanResponse r, cleanResponse_sublist r, trim_decompose _, head?_trim _,
    getLast?_trim _⟩

/-- C9, witness: `sampleReadyState` and a model whose answer has a marker at its start,
one in the middle and one at its end. -/
theorem generateNotes_loads_cleaned_witness :
    (sampleReadyState.pdfFile = some ⟨.ok samplePdf⟩ ∧
      extractTextFromPDF 0 sampleReadyState.pageRange ⟨.ok samplePdf⟩ =
        some (.ok "A B C".toList, [.ofNat 1, .ofNat 2])) ∧
    ∃ st', generateNotes
        (some fun _ => .ok (fenceHtml ++ "<p>".toList ++ fence ++ "</p>".toList ++ fence))
        0 sampleReadyState = some st' ∧
      st'.content =
        trim (removeFences (fenceHtml ++ "<p>".toList ++ fence ++ "</p>".toList ++ fence)) ∧
      st'.alerts = sampleReadyState.alerts ∧ st'.aiLoading = false ∧ st'.aiStatus = [] :=
  ⟨⟨rfl, sampleReadyState_extract⟩,
    (generateNotes_loads_cleaned
      (fun _ => .ok (fenceHtml ++ "<p>".toList ++ fence ++ "</p>".toList ++ fence)) 0
      sampleReadyState ⟨.ok samplePdf⟩ "A B C".toList [.ofNat 1, .ofNat 2] _ rfl
      sampleReadyState_extract rfl).1⟩

/-- C10, the code at the failing input.  With the expression `1-Infinity` and ten pages,
`getPagesToProcess` does not return, however many iterations its range loop is allowed:
the loop test `i <= end` holds for every `i` when `end` is `Infinity`. -/
theorem getPagesToProcess_one_to_infinity (fuel : ℕ) :
    getPagesToProcess fuel "1-Infinity".toList 10 = none :=
  eval_one_to_infinity fuel


end MedPulse
